import Mathlib

/-!
# The odd-prime indicator `T[n]` of `spectral_t.cpp`

`T[n]` flags whether the odd number `o_n = 2n+1` is prime.  The source builds it in
three ways (`T_from_formula`, `progression_marking_T`, `T_via_sieve`) on top of the
Eratosthenes sieve `primes_upto`; `prime_spectrum.cpp` builds it a fourth way, by trial
division (`is_prime`, `generate_T`).

Embedding conventions.

* Every integer variable of the source is an `Int` (signed types) or a `Nat` (unsigned
  types) holding its value.
* `int` is 32 bits wide.  The result of an `int` computation that can leave the range
  `[-2^31, 2^31)` goes through `int32` (or `int_succ` for `x + 1`, where only the upper
  end can be crossed): outside the range the signed arithmetic overflows, which is
  undefined behaviour, and the run ends in the fault `overflow`.  The same holds for a
  floating-point value converted to `int`.  The conversion of a `long long` to `int` is
  `narrow32`, reduction modulo `2^32`.
* `long long` arithmetic is exact: `2LL * N + 1`, `3LL * p - 1` and the running index
  `n += p` have `int` operands and stay below `2^34`, and `o = 2 * n + 1` of
  `T_from_formula` is used only in `o == 3` and under the square root.
* The unsigned arithmetic of `prime_spectrum.cpp`, which wraps by definition, carries an
  explicit `% 2 ^ 64`.
* Every `/` and `%` of the source is applied to non-negative operands with a positive
  divisor, where C++ truncation and the `Int` and `Nat` operators agree.
* `vector<char>` and `vector<int>` are `List Int`.  Constructing a vector with a
  negative count, and `operator[]` outside `[0, size)`, are faults: functions that
  allocate or index return `Except Fault`.
* `for` loops with a counter are recursive functions over a fuel argument; the caller
  passes enough fuel and running out is a fault of its own, so a result `.ok` is
  always a result of the loop.  Range-`for` loops recurse over the list.
* `floor(sqrt(x))` of an integer `x ≥ 0` is `isqrt x`, the integer square root, the
  mathematical value of the expression.
-/

namespace SpectralT

/-- The ways a run can fail to produce a value. -/
inductive Fault
  /-- A vector is constructed with a negative element count. -/
  | badAlloc
  /-- The subscript of `operator[]` is outside `[0, size)`. -/
  | outOfBounds
  /-- A loop of the model used up its fuel. -/
  | outOfFuel
  /-- An `int` computation leaves the range of the 32-bit type. -/
  | overflow
  deriving DecidableEq, Repr

/-- The result of an `int` computation whose mathematical value is `x`. -/
def int32 (x : Int) : Except Fault Int :=
  if -2147483648 ≤ x ∧ x ≤ 2147483647 then .ok x else .error .overflow

/-- The value of `x + 1` for an `int` variable `x` (also `++x`): it overflows at
`INT_MAX`. -/
def int_succ (x : Int) : Except Fault Int :=
  if x < 2147483647 then .ok (x + 1) else .error .overflow

/-- The conversion `(int)x` of a `long long`: the value modulo `2^32` in
`[-2^31, 2^31)`. -/
def narrow32 (x : Int) : Int := (x + 2147483648) % 4294967296 - 2147483648

/-- The constructor `vector<T>(count, v)`. -/
def mkVector (count : Int) (v : Int) : Except Fault (List Int) :=
  if count < 0 then .error .badAlloc else .ok (List.replicate count.toNat v)

/-- The assignment `a[i] = v`. -/
def store (a : List Int) (i : Int) (v : Int) : Except Fault (List Int) :=
  if 0 ≤ i ∧ i < a.length then .ok (a.set i.toNat v) else .error .outOfBounds

/-- The read `a[i]`. -/
def load (a : List Int) (i : Int) : Except Fault Int :=
  if 0 ≤ i ∧ i < a.length then .ok (a.getD i.toNat 0) else .error .outOfBounds

/-- The largest `k ≤ bound` with `k * k ≤ x`, found by searching downwards. -/
def isqrtSearch (x : Nat) : Nat → Nat
  | 0 => 0
  | k + 1 => if (k + 1) * (k + 1) ≤ x then k + 1 else isqrtSearch x k

/-- The value of `floor(sqrt(x))` for `x ≥ 0`: the integer square root (`isqrt_eq_sqrt`
below identifies it with `Nat.sqrt`). -/
def isqrt (x : Int) : Int := (isqrtSearch x.toNat x.toNat : Nat)

/-! ## `primes_upto` -/

/-- The loop `for (int q = p*p; q <= n; q += p) is_prime[q] = false;`, entered at `q`. -/
def primes_upto_inner (n p : Int) : Nat → Int → List Int → Except Fault (List Int)
  | 0, _, _ => .error .outOfFuel
  | fuel + 1, q, is_prime =>
    if q ≤ n then do
      let is_prime ← store is_prime q 0
      let q ← int32 (q + p)
      primes_upto_inner n p fuel q is_prime
    else .ok is_prime

/-- The loop `for (int p = 2; p <= r; ++p) if (is_prime[p]) ...`, entered at `p`. -/
def primes_upto_outer (n r : Int) : Nat → Int → List Int → Except Fault (List Int)
  | 0, _, _ => .error .outOfFuel
  | fuel + 1, p, is_prime =>
    if p ≤ r then do
      let flag ← load is_prime p
      let is_prime ←
        (if flag ≠ 0 then do
          let q ← int32 (p * p)
          primes_upto_inner n p (n.toNat + 2) q is_prime
        else pure is_prime)
      let p ← int_succ p
      primes_upto_outer n r fuel p is_prime
    else .ok is_prime

/-- The loop `for (int i = 2; i <= n; ++i) if (is_prime[i]) primes.push_back(i);`,
entered at `i`. -/
def primes_upto_collect (n : Int) (is_prime : List Int) :
    Nat → Int → List Int → Except Fault (List Int)
  | 0, _, _ => .error .outOfFuel
  | fuel + 1, i, primes =>
    if i ≤ n then do
      let flag ← load is_prime i
      let primes := if flag ≠ 0 then primes ++ [i] else primes
      let i ← int_succ i
      primes_upto_collect n is_prime fuel i primes
    else .ok primes

/-- The function `vector<int> primes_upto(int limit)`.  The chained assignment
`is_prime[0] = is_prime[1] = false` writes entry `1` first; `primes.reserve` changes no
value and is left out. -/
def primes_upto (limit : Int) : Except Fault (List Int) :=
  if limit < 2 then .ok [] else do
    let n := limit
    let count ← int_succ n
    let is_prime ← mkVector count 1
    let is_prime ← store is_prime 1 0
    let is_prime ← store is_prime 0 0
    let r ← int32 (isqrt n)
    let is_prime ← primes_upto_outer n r (r.toNat + 2) 2 is_prime
    primes_upto_collect n is_prime (n.toNat + 2) 2 []

/-! ## `T_from_formula` -/

/-- The loop `for (int p : *primes) ...` of `T_from_formula` followed by `return 1`. -/
def T_from_formula_loop (n : Int) : List Int → Int
  | [] => 1
  | p :: rest =>
    if p < 3 then T_from_formula_loop n rest
    else
      let base := (3 * p - 1) / 2
      if base > n then 1
      else
        let diff := n - base
        if diff ≥ 0 ∧ diff % p = 0 then 0
        else T_from_formula_loop n rest

/-- The function `int T_from_formula(long long n, const vector<int>* primes_opt = nullptr)`;
`none` is the null pointer.  Without a list, `lim` is the `int` value
`(int)floor(sqrt((long double)o)) + 1`. -/
def T_from_formula (n : Int) (primes_opt : Option (List Int) := none) : Except Fault Int :=
  if n < 1 then .ok 0 else
    let o := 2 * n + 1
    if o = 3 then .ok 1 else do
      let primes ←
        match primes_opt with
        | some l => pure l
        | none => do
          let root ← int32 (isqrt o)
          let lim ← int_succ root
          primes_upto (max lim 3)
      pure (T_from_formula_loop n primes)

/-! ## `progression_marking_T` -/

/-- The loop `for (long long n = base; n <= N; n += p) T[(size_t)n] = 0;`, entered at `n`. -/
def progression_marking_T_inner (N p : Int) : Nat → Int → List Int → Except Fault (List Int)
  | 0, _, _ => .error .outOfFuel
  | fuel + 1, n, T =>
    if n ≤ N then do
      let T ← store T n 0
      progression_marking_T_inner N p fuel (n + p) T
    else .ok T

/-- The loop `for (int p : primes) ...` of `progression_marking_T`. -/
def progression_marking_T_loop (N : Int) : List Int → List Int → Except Fault (List Int)
  | [], T => .ok T
  | p :: rest, T =>
    if p < 3 then progression_marking_T_loop N rest T
    else
      let base := (3 * p - 1) / 2
      if base > N then .ok T
      else do
        let T ← progression_marking_T_inner N p (N.toNat + 2) base T
        progression_marking_T_loop N rest T

/-- The function `vector<char> progression_marking_T(int N, int p_max = -1)`; the default
cutoff `2 * N + 1` is computed in `int`. -/
def progression_marking_T (N : Int) (p_max : Int := -1) : Except Fault (List Int) := do
  let count ← int_succ N
  let T ← mkVector count 1
  let T ← store T 0 0
  let p_max ← if p_max < 0 then int32 (2 * N + 1) else pure p_max
  let primes ← primes_upto p_max
  progression_marking_T_loop N primes T

/-! ## `T_via_sieve` -/

/-- The loop `for (int j = start; j < size; j += p) is_prime_odd[j] = 0;`, entered at `j`. -/
def T_via_sieve_inner (size p : Int) : Nat → Int → List Int → Except Fault (List Int)
  | 0, _, _ => .error .outOfFuel
  | fuel + 1, j, is_prime_odd =>
    if j < size then do
      let is_prime_odd ← store is_prime_odd j 0
      let j ← int32 (j + p)
      T_via_sieve_inner size p fuel j is_prime_odd
    else .ok is_prime_odd

/-- The loop `for (int i = 1; i <= max_i; ++i) ...` of `T_via_sieve`, entered at `i`;
`p` and `p * p` are `int` values, and `p * p - 1`, at least `-1`, stays in range. -/
def T_via_sieve_outer (size max_i : Int) : Nat → Int → List Int → Except Fault (List Int)
  | 0, _, _ => .error .outOfFuel
  | fuel + 1, i, is_prime_odd =>
    if i ≤ max_i then do
      let flag ← load is_prime_odd i
      if flag = 0 then do
        let i ← int_succ i
        T_via_sieve_outer size max_i fuel i is_prime_odd
      else do
        let p ← int32 (2 * i + 1)
        let square ← int32 (p * p)
        let start := (square - 1) / 2
        let is_prime_odd ← T_via_sieve_inner size p (size.toNat + 2) start is_prime_odd
        let i ← int_succ i
        T_via_sieve_outer size max_i fuel i is_prime_odd
    else .ok is_prime_odd

/-- The loop `for (int n = 0; n <= N; ++n) ...` of `T_via_sieve`, entered at `n`;
the test `n < size && is_prime_odd[n]` reads the array only when `n < size`. -/
def T_via_sieve_fill (N size : Int) (is_prime_odd : List Int) :
    Nat → Int → List Int → Except Fault (List Int)
  | 0, _, _ => .error .outOfFuel
  | fuel + 1, n, T =>
    if n ≤ N then do
      let flag ← if n < size then load is_prime_odd n else pure 0
      let T ← store T n (if flag ≠ 0 then 1 else 0)
      let n ← int_succ n
      T_via_sieve_fill N size is_prime_odd fuel n T
    else .ok T

/-- Lines 88 to 97 of `T_via_sieve`: the `int` values `size` and `max_i` and the packed
array `is_prime_odd` when the sieve loop has ended. -/
def T_via_sieve_packed (limit : Int) : Except Fault (Int × Int × List Int) := do
  let size := narrow32 ((limit + 1) / 2)
  let is_prime_odd ← mkVector size 1
  let is_prime_odd ← store is_prime_odd 0 0
  let max_i ← int32 (isqrt limit / 2)
  let is_prime_odd ← T_via_sieve_outer size max_i (max_i.toNat + 2) 1 is_prime_odd
  pure (size, max_i, is_prime_odd)

/-- The function `vector<char> T_via_sieve(int N)`. -/
def T_via_sieve (N : Int) : Except Fault (List Int) :=
  let limit := 2 * N + 1
  if limit < 2 then do
    let count ← int_succ N
    mkVector count 0
  else do
    let packed ← T_via_sieve_packed limit
    let count ← int_succ N
    let T ← mkVector count 0
    T_via_sieve_fill N packed.1 packed.2.2 (N.toNat + 2) 0 T

/-! ## Reference values and loop invariants -/

/-- State of the flag array of `primes_upto` when the outer loop is about to test `p`:
entry `k` is cleared exactly when `k < 2` or `k` is a multiple, at least `d * d`, of
some `d` with `2 ≤ d < p`. -/
def SieveInv (n p : Nat) (a : List Int) : Prop :=
  a.length = n + 1 ∧ ∀ k : Nat, k ≤ n →
    (a.getD k 0 = 0 ∨ a.getD k 0 = 1) ∧
    (a.getD k 0 = 0 ↔ (k < 2 ∨ ∃ d : Nat, 2 ≤ d ∧ d < p ∧ d ∣ k ∧ d * d ≤ k))

/-- The primes `p ≤ limit` in ascending order: the reference value of `primes_upto`. -/
def primeList (limit : Int) : List Int :=
  ((List.range (limit.toNat + 1)).filter (fun k => decide (Nat.Prime k))).map
    (fun k : Nat => (k : Int))

/-- State of the packed array of `T_via_sieve` when the outer loop is about to test
slot `i`: slot `k` (the number `2k+1`) is cleared exactly when `k = 0` or `2k+1` is a
multiple, at least `d * d`, of some `d = 2j+1` with `1 ≤ j < i`. -/
def OddSieveInv (N i : Nat) (a : List Int) : Prop :=
  a.length = N + 1 ∧ ∀ k : Nat, k ≤ N →
    (a.getD k 0 = 0 ∨ a.getD k 0 = 1) ∧
    (a.getD k 0 = 0 ↔ (k = 0 ∨ ∃ j : Nat, 1 ≤ j ∧ j < i ∧ (2 * j + 1) ∣ (2 * k + 1) ∧
      (2 * j + 1) * (2 * j + 1) ≤ 2 * k + 1))

/-- The array `T[0..N]` of the specification: entry `n` is `1` when `2n+1` is prime and
`0` otherwise.  It is the reference value of the three generators. -/
def oddPrimeFlags (N : Int) : List Int :=
  (List.range (N + 1).toNat).map (fun n => if Nat.Prime (2 * n + 1) then 1 else 0)

/-! ## The progression base and the formula method without the early stop -/

/-- The value `(3LL * p - 1) / 2` that `T_from_formula` and `progression_marking_T` assign
to their local variable `base`. -/
def base (p : Int) : Int := (3 * p - 1) / 2

/-- The loop `for (unsigned long long i = 3; i * i <= n; i += 2) ...` of `is_prime`
followed by `return true`, entered at `i`. -/
def is_prime_loop (n : Nat) : Nat → Nat → Except Fault Bool
  | 0, _ => .error .outOfFuel
  | fuel + 1, i =>
    if (i * i) % 2 ^ 64 ≤ n then
      if n % i = 0 then .ok false
      else is_prime_loop n fuel ((i + 2) % 2 ^ 64)
    else .ok true

/-- The function `bool is_prime(unsigned long long n)`. -/
def is_prime (n : Nat) : Except Fault Bool :=
  if n < 2 then .ok false
  else if n % 2 = 0 then .ok (decide (n = 2))
  else is_prime_loop n (n + 1) 3

/-- The loop `for (size_t n = 0; n < limit; ++n) ...` of `generate_T`, entered at `n`;
`n + 1` stays below `limit`, so `++n` does not wrap. -/
def generate_T_loop (limit : Nat) : Nat → Nat → List Int → Except Fault (List Int)
  | 0, _, _ => .error .outOfFuel
  | fuel + 1, n, T =>
    if n < limit then do
      let odd_val := (2 * n + 1) % 2 ^ 64
      let b ← is_prime odd_val
      generate_T_loop limit fuel (n + 1) (T ++ [if b then 1 else 0])
    else .ok T

/-- The function `std::vector<int> generate_T(size_t limit)`; `T.reserve` changes no
value and is left out. -/
def generate_T (limit : Nat) : Except Fault (List Int) :=
  generate_T_loop limit (limit + 1) 0 []

/-- The number of `k ≤ m` on which `is_prime` answers `true`. -/
def is_prime_count (m : Nat) : Nat :=
  ((List.range (m + 1)).filter (fun k => decide ((is_prime k).toOption = some true))).length

/-! ## The products computed by the packed sieve -/

/-- The outer loop of `T_via_sieve` with a ghost list: the run of `T_via_sieve_outer` on
the mathematical values of `p` and `p * p`, which also appends to `products` every value
`p * p` that the loop computes, whether or not it is in the range of `int`.  Where every
product is in that range the array it returns is the array of `T_via_sieve_outer`
(`T_via_sieve_outer_traced_fst` below). -/
def T_via_sieve_outer_traced (size max_i : Int) :
    Nat → Int → List Int → List Int → Except Fault (List Int × List Int)
  | 0, _, _, _ => .error .outOfFuel
  | fuel + 1, i, is_prime_odd, products =>
    if i ≤ max_i then do
      let flag ← load is_prime_odd i
      if flag = 0 then T_via_sieve_outer_traced size max_i fuel (i + 1) is_prime_odd products
      else
        let p := 2 * i + 1
        let start := (p * p - 1) / 2
        let is_prime_odd ← T_via_sieve_inner size p (size.toNat + 2) start is_prime_odd
        T_via_sieve_outer_traced size max_i fuel (i + 1) is_prime_odd (products ++ [p * p])
    else .ok (is_prime_odd, products)

/-- The mathematical values of the products `p * p` that `T_via_sieve N` computes, in
the order of the run. -/
def T_via_sieve_products (N : Int) : Except Fault (List Int) :=
  let limit := 2 * N + 1
  if limit < 2 then .ok [] else do
    let size := (limit + 1) / 2
    let is_prime_odd ← mkVector size 1
    let is_prime_odd ← store is_prime_odd 0 0
    let max_i := isqrt limit / 2
    let run ← T_via_sieve_outer_traced size max_i (max_i.toNat + 2) 1 is_prime_odd []
    pure run.2

/-! ## Vectors, `int` results and the integer square root -/

theorem bind_ok {α β : Type} (v : α) (f : α → Except Fault β) :
    (Except.ok v >>= f) = f v := rfl

theorem bind_pure_ok {α β : Type} (v : α) (f : α → Except Fault β) :
    (pure v >>= f) = f v := rfl

theorem bind_error {α β : Type} (e : Fault) (f : α → Except Fault β) :
    (Except.error e >>= f) = Except.error e := rfl

theorem int32_ok {x : Int} (h0 : -2147483648 ≤ x) (h1 : x ≤ 2147483647) :
    int32 x = .ok x := by
  unfold int32
  rw [if_pos ⟨h0, h1⟩]

theorem int32_overflow {x : Int} (h : 2147483647 < x) : int32 x = .error .overflow := by
  unfold int32
  rw [if_neg (by omega)]

theorem int_succ_ok {x : Int} (h : x < 2147483647) : int_succ x = .ok (x + 1) := by
  unfold int_succ
  rw [if_pos h]

theorem int_succ_overflow {x : Int} (h : 2147483647 ≤ x) :
    int_succ x = .error .overflow := by
  unfold int_succ
  rw [if_neg (by omega)]

theorem narrow32_eq {x : Int} (h0 : -2147483648 ≤ x) (h1 : x ≤ 2147483647) :
    narrow32 x = x := by
  unfold narrow32
  omega

theorem mkVector_ok {count : Int} (v : Int) (h : 0 ≤ count) :
    mkVector count v = .ok (List.replicate count.toNat v) := by
  unfold mkVector
  rw [if_neg (by omega)]

theorem store_ok {a : List Int} {i : Int} (v : Int) (h0 : 0 ≤ i) (h1 : i < a.length) :
    store a i v = .ok (a.set i.toNat v) := by
  unfold store
  rw [if_pos ⟨h0, h1⟩]

theorem load_ok {a : List Int} {i : Int} (h0 : 0 ≤ i) (h1 : i < a.length) :
    load a i = .ok (a.getD i.toNat 0) := by
  unfold load
  rw [if_pos ⟨h0, h1⟩]

theorem getD_set (a : List Int) (i k : Nat) (v : Int) (hi : i < a.length) :
    (a.set i v).getD k 0 = if k = i then v else a.getD k 0 := by
  by_cases h : k = i
  · subst h
    simp [List.getD_eq_getElem?_getD, List.getElem?_set, hi]
  · have h' : i ≠ k := fun e => h e.symm
    simp [List.getD_eq_getElem?_getD, List.getElem?_set, h, h']

theorem getD_replicate (m k : Nat) (v : Int) (hk : k < m) :
    (List.replicate m v).getD k 0 = v := by
  simp [List.getD_eq_getElem?_getD, List.getElem?_replicate, hk]

theorem isqrtSearch_spec (x : Nat) :
    ∀ b : Nat, isqrtSearch x b ≤ b ∧ isqrtSearch x b * isqrtSearch x b ≤ x ∧
      ∀ k : Nat, k ≤ b → k * k ≤ x → k ≤ isqrtSearch x b := by
  intro b
  induction b with
  | zero =>
    refine ⟨le_refl _, by simp [isqrtSearch], ?_⟩
    intro k hk _
    simpa [isqrtSearch] using hk
  | succ b ih =>
    obtain ⟨h1, h2, h3⟩ := ih
    unfold isqrtSearch
    by_cases hb : (b + 1) * (b + 1) ≤ x
    · rw [if_pos hb]
      exact ⟨le_refl _, hb, fun k hk _ => hk⟩
    · rw [if_neg hb]
      refine ⟨Nat.le_succ_of_le h1, h2, ?_⟩
      intro k hk hkx
      rcases Nat.lt_or_ge k (b + 1) with hlt | hge
      · exact h3 k (Nat.lt_succ_iff.mp hlt) hkx
      · have : k = b + 1 := le_antisymm hk hge
        subst this
        exact absurd hkx hb

theorem isqrtSearch_eq_sqrt (x : Nat) : isqrtSearch x x = Nat.sqrt x := by
  obtain ⟨_, h2, h3⟩ := isqrtSearch_spec x x
  apply le_antisymm
  · exact Nat.le_sqrt.mpr h2
  · exact h3 _ (Nat.sqrt_le_self x) (Nat.sqrt_le x)

theorem isqrt_eq_sqrt (x : Int) : isqrt x = (Nat.sqrt x.toNat : Int) := by
  unfold isqrt
  rw [isqrtSearch_eq_sqrt]

theorem isqrt_natCast (x : Nat) : isqrt (x : Int) = (Nat.sqrt x : Int) := by
  rw [isqrt_eq_sqrt]
  simp

/-! ## The three stride loops -/

/-- The stride loop of `progression_marking_T`, whose index is a `long long`: it clears
the entries `n, n + p, n + 2p, ...` up to `N`. -/
theorem progression_marking_T_inner_spec (N p : Int) (hp : 0 < p) :
    ∀ (fuel : Nat) (q : Int) (a : List Int), 0 ≤ q → N < a.length →
      (N + 1 - q).toNat < fuel →
      ∃ a', progression_marking_T_inner N p fuel q a = .ok a' ∧ a'.length = a.length ∧
        ∀ k : Nat, a'.getD k 0 =
          if (q ≤ (k : Int) ∧ (k : Int) ≤ N ∧ p ∣ ((k : Int) - q)) then 0 else a.getD k 0 := by
  intro fuel
  induction fuel with
  | zero => intro q a _ _ h; omega
  | succ fuel ih =>
    intro q a hq hn hfuel
    unfold progression_marking_T_inner
    by_cases hqn : q ≤ N
    · rw [if_pos hqn, store_ok 0 hq (by omega)]
      have hlen : (a.set q.toNat 0).length = a.length := List.length_set ..
      obtain ⟨a', hrun, hlen', hget⟩ :=
        ih (q + p) (a.set q.toNat 0) (by omega) (by rw [hlen]; exact hn) (by omega)
      refine ⟨a', hrun, by rw [hlen', hlen], ?_⟩
      intro k
      rw [hget k, getD_set a q.toNat k 0 (by omega)]
      by_cases hk : k = q.toNat
      · have hkq : (k : Int) = q := by omega
        have h1 : ¬ (q + p ≤ (k : Int) ∧ (k : Int) ≤ N ∧ p ∣ ((k : Int) - (q + p))) := by
          intro h; omega
        have h2 : q ≤ (k : Int) ∧ (k : Int) ≤ N ∧ p ∣ ((k : Int) - q) :=
          ⟨by omega, by omega, by rw [hkq, sub_self]; exact dvd_zero p⟩
        rw [if_neg h1, if_pos hk, if_pos h2]
      · rw [if_neg hk]
        have hkq : (k : Int) ≠ q := by omega
        have hiff : (q + p ≤ (k : Int) ∧ (k : Int) ≤ N ∧ p ∣ ((k : Int) - (q + p))) ↔
            (q ≤ (k : Int) ∧ (k : Int) ≤ N ∧ p ∣ ((k : Int) - q)) := by
          have e : (k : Int) - (q + p) = (k : Int) - q - p := by ring
          constructor
          · rintro ⟨h1, h2, h3⟩
            refine ⟨by omega, h2, ?_⟩
            rw [e] at h3
            exact (dvd_sub_self_right.mp h3)
          · rintro ⟨h1, h2, h3⟩
            have hpos : 0 < (k : Int) - q := by omega
            have hle := Int.le_of_dvd hpos h3
            refine ⟨by omega, h2, ?_⟩
            rw [e]
            exact dvd_sub_self_right.mpr h3
        by_cases hc : (q ≤ (k : Int) ∧ (k : Int) ≤ N ∧ p ∣ ((k : Int) - q))
        · rw [if_pos hc, if_pos (hiff.mpr hc)]
        · rw [if_neg hc, if_neg (fun h => hc (hiff.mp h))]
    · rw [if_neg hqn]
      refine ⟨a, rfl, rfl, ?_⟩
      intro k
      rw [if_neg]
      intro h; omega

/-- While every index `k` the loop visits has `k + p` in the range of `int`, the stride
loop of `primes_upto`, whose index is an `int`, is the stride loop above. -/
theorem primes_upto_inner_eq (n p : Int) (hp : 0 < p) :
    ∀ (fuel : Nat) (q : Int) (a : List Int), 0 ≤ q → n < a.length →
      (∀ k : Int, q ≤ k → k ≤ n → p ∣ (k - q) → k + p ≤ 2147483647) →
      primes_upto_inner n p fuel q a = progression_marking_T_inner n p fuel q a := by
  intro fuel
  induction fuel with
  | zero => intro q a _ _ _; rfl
  | succ fuel ih =>
    intro q a hq hn hfit
    unfold primes_upto_inner progression_marking_T_inner
    by_cases hqn : q ≤ n
    · have hqp : q + p ≤ 2147483647 := hfit q (le_refl q) hqn (by rw [sub_self]; exact dvd_zero p)
      rw [if_pos hqn, if_pos hqn, store_ok 0 hq (by omega)]
      simp only [bind, Except.bind]
      rw [int32_ok (by omega) hqp]
      simp only []
      apply ih (q + p) _ (by omega) (by rw [List.length_set]; exact hn)
      intro k hk hkn hdvd
      apply hfit k (by omega) hkn
      have e : k - q = (k - (q + p)) + p := by ring
      rw [e]
      exact dvd_add hdvd (dvd_refl p)
    · rw [if_neg hqn, if_neg hqn]

theorem primes_upto_inner_spec (n p : Int) (hp : 0 < p) (fuel : Nat) (q : Int)
    (a : List Int) (hq : 0 ≤ q) (hn : n < a.length) (hfuel : (n + 1 - q).toNat < fuel)
    (hfit : ∀ k : Int, q ≤ k → k ≤ n → p ∣ (k - q) → k + p ≤ 2147483647) :
    ∃ a', primes_upto_inner n p fuel q a = .ok a' ∧ a'.length = a.length ∧
      ∀ k : Nat, a'.getD k 0 =
        if (q ≤ (k : Int) ∧ (k : Int) ≤ n ∧ p ∣ ((k : Int) - q)) then 0 else a.getD k 0 := by
  rw [primes_upto_inner_eq n p hp fuel q a hq hn hfit]
  exact progression_marking_T_inner_spec n p hp fuel q a hq hn hfuel

/-- The stride loop of `primes_upto` either ends in the overflow of `q += p` or runs as the
stride loop on exact integers. -/
theorem primes_upto_inner_overflow_or (n p : Int) :
    ∀ (fuel : Nat) (q : Int) (a : List Int),
      primes_upto_inner n p fuel q a = .error .overflow ∨
        primes_upto_inner n p fuel q a = progression_marking_T_inner n p fuel q a := by
  intro fuel
  induction fuel with
  | zero => intro q a; exact Or.inr rfl
  | succ fuel ih =>
    intro q a
    unfold primes_upto_inner progression_marking_T_inner
    by_cases hqn : q ≤ n
    · rw [if_pos hqn, if_pos hqn]
      cases store a q 0 with
      | error e => exact Or.inr rfl
      | ok a1 =>
        rw [bind_ok, bind_ok]
        by_cases hfit : q + p ≤ 2147483647
        · by_cases hlow : -2147483648 ≤ q + p
          · rw [int32_ok hlow hfit, bind_ok]
            exact ih (q + p) a1
          · unfold int32
            rw [if_neg (fun h => hlow h.1), bind_error]
            exact Or.inl rfl
        · rw [int32_overflow (by omega), bind_error]
          exact Or.inl rfl
    · rw [if_neg hqn, if_neg hqn]
      exact Or.inr rfl

/-- When some index `K` on the stride, `q ≤ K ≤ n`, has `K + p` above `2^31 - 1`, the
stride loop of `primes_upto` ends in the overflow of `q += p`. -/
theorem primes_upto_inner_overflow (n p : Int) (hp : 0 < p) :
    ∀ (fuel : Nat) (q : Int) (a : List Int), 0 ≤ q → n < a.length →
      (n + 1 - q).toNat < fuel →
      (∃ K : Int, q ≤ K ∧ K ≤ n ∧ p ∣ K - q ∧ 2147483647 < K + p) →
      primes_upto_inner n p fuel q a = .error .overflow := by
  intro fuel
  induction fuel with
  | zero => intro q a _ _ h; omega
  | succ fuel ih =>
    intro q a hq hn hfuel hK
    obtain ⟨K, hqK, hKn, hdvd, hbig⟩ := hK
    unfold primes_upto_inner
    rw [if_pos (by omega), store_ok 0 hq (by omega), bind_ok]
    by_cases hfit : q + p ≤ 2147483647
    · rw [int32_ok (by omega) hfit, bind_ok]
      have hpos : 0 < K - q := by omega
      have hle := Int.le_of_dvd hpos hdvd
      apply ih (q + p) _ (by omega) (by rw [List.length_set]; exact hn) (by omega)
      refine ⟨K, by omega, hKn, ?_, hbig⟩
      have e : K - (q + p) = K - q - p := by ring
      rw [e]
      exact dvd_sub_self_right.mpr hdvd
    · rw [int32_overflow (by omega), bind_error]

theorem T_via_sieve_inner_eq (size p : Int) (fuel : Nat) (j : Int) (a : List Int) :
    T_via_sieve_inner size p fuel j a = primes_upto_inner (size - 1) p fuel j a := by
  induction fuel generalizing j a with
  | zero => rfl
  | succ fuel ih =>
    unfold T_via_sieve_inner primes_upto_inner
    by_cases h : j < size
    · rw [if_pos h, if_pos (by omega)]
      cases store a j 0 with
      | error e => rfl
      | ok a' =>
        simp only [bind, Except.bind]
        cases int32 (j + p) with
        | error e => rfl
        | ok j' => exact ih j' a'
    · rw [if_neg h, if_neg (by omega)]

/-! ## `primes_upto` is the sieve of Eratosthenes -/

theorem int_dvd_sub_sq (p k : Nat) :
    ((p : Int) ∣ (k : Int) - (p : Int) * (p : Int)) ↔ p ∣ k := by
  rw [dvd_sub_left (dvd_mul_right (p : Int) (p : Int))]
  exact Int.natCast_dvd_natCast

theorem SieveInv_marked {n p : Nat} {a a' : List Int} (hinv : SieveInv n p a)
    (hlen : a'.length = a.length)
    (hget : ∀ k : Nat, a'.getD k 0 =
      if ((p : Int) * (p : Int) ≤ (k : Int) ∧ (k : Int) ≤ (n : Int) ∧
          (p : Int) ∣ ((k : Int) - (p : Int) * (p : Int))) then 0 else a.getD k 0)
    (hp : 2 ≤ p) : SieveInv n (p + 1) a' := by
  obtain ⟨hl, hk⟩ := hinv
  refine ⟨by rw [hlen, hl], ?_⟩
  intro k hkn
  obtain ⟨h01, hz⟩ := hk k hkn
  have hcond : ((p : Int) * (p : Int) ≤ (k : Int) ∧ (k : Int) ≤ (n : Int) ∧
      (p : Int) ∣ ((k : Int) - (p : Int) * (p : Int))) ↔ (p * p ≤ k ∧ p ∣ k) := by
    rw [int_dvd_sub_sq]
    constructor
    · rintro ⟨h1, _, h3⟩
      exact ⟨by exact_mod_cast h1, h3⟩
    · rintro ⟨h1, h3⟩
      exact ⟨by exact_mod_cast h1, by exact_mod_cast hkn, h3⟩
  rw [hget k]
  by_cases hc : p * p ≤ k ∧ p ∣ k
  · rw [if_pos (hcond.mpr hc)]
    refine ⟨Or.inl rfl, fun _ => Or.inr ⟨p, hp, Nat.lt_succ_self p, hc.2, hc.1⟩, fun _ => rfl⟩
  · rw [if_neg (fun h => hc (hcond.mp h))]
    refine ⟨h01, hz.trans ?_⟩
    constructor
    · rintro (h | ⟨d, hd2, hdp, hdk, hdd⟩)
      · exact Or.inl h
      · exact Or.inr ⟨d, hd2, Nat.lt_succ_of_lt hdp, hdk, hdd⟩
    · rintro (h | ⟨d, hd2, hdp, hdk, hdd⟩)
      · exact Or.inl h
      · rcases Nat.lt_or_ge d p with hlt | hge
        · exact Or.inr ⟨d, hd2, hlt, hdk, hdd⟩
        · have : d = p := le_antisymm (Nat.lt_succ_iff.mp hdp) hge
          subst this
          exact absurd ⟨hdd, hdk⟩ hc

theorem SieveInv_skipped {n p : Nat} {a : List Int} (hinv : SieveInv n p a)
    (hp : 2 ≤ p) (hpn : p ≤ n) (h0 : a.getD p 0 = 0) : SieveInv n (p + 1) a := by
  obtain ⟨hl, hk⟩ := hinv
  refine ⟨hl, ?_⟩
  intro k hkn
  obtain ⟨h01, hz⟩ := hk k hkn
  refine ⟨h01, hz.trans ?_⟩
  constructor
  · rintro (h | ⟨d, hd2, hdp, hdk, hdd⟩)
    · exact Or.inl h
    · exact Or.inr ⟨d, hd2, Nat.lt_succ_of_lt hdp, hdk, hdd⟩
  · rintro (h | ⟨d, hd2, hdp, hdk, hdd⟩)
    · exact Or.inl h
    · rcases Nat.lt_or_ge d p with hlt | hge
      · exact Or.inr ⟨d, hd2, hlt, hdk, hdd⟩
      · have : d = p := le_antisymm (Nat.lt_succ_iff.mp hdp) hge
        subst this
        rcases ((hk d hpn).2.mp h0) with h | ⟨e, he2, hed, hedv, hee⟩
        · omega
        · refine Or.inr ⟨e, he2, hed, dvd_trans hedv hdk, ?_⟩
          have : d ≤ d * d := Nat.le_mul_self d
          omega

/-- An entry still flagged when the outer loop of `primes_upto` reaches it is a prime. -/
theorem SieveInv_flag_prime {n p : Nat} {a : List Int} (hinv : SieveInv n p a)
    (hp : 2 ≤ p) (hpn : p ≤ n) (hflag : a.getD p 0 ≠ 0) : Nat.Prime p := by
  rw [Ne, (hinv.2 p hpn).2] at hflag
  rw [Nat.prime_def_le_sqrt]
  refine ⟨hp, fun m hm2 hmsq hdvd => hflag (Or.inr ⟨m, hm2, ?_, hdvd, Nat.le_sqrt.mp hmsq⟩)⟩
  have hmm : m * m ≤ p := Nat.le_sqrt.mp hmsq
  have : m * 2 ≤ m * m := Nat.mul_le_mul_left m hm2
  omega

/-- For `n ≤ 2147437383` and a prime `p` with `p * p ≤ n`, every multiple `k ≤ n` of `p`
has `k + p` in the range of `int`: the increment `q += p` of `primes_upto` does not
overflow. -/
theorem stride_fits (n p k : Nat) (hn : n ≤ 2147437383) (hp : Nat.Prime p)
    (hpp : p * p ≤ n) (hk : k ≤ n) (hdvd : p ∣ k) : k + p ≤ 2147483647 := by
  have hp1 : p ≤ 46340 := by
    by_contra hgt
    have : 46341 * 46341 ≤ p * p := Nat.mul_le_mul (by omega) (by omega)
    omega
  rcases Nat.lt_or_ge p 46265 with hsmall | hbig
  · omega
  · obtain ⟨c, rfl⟩ := hdvd
    interval_cases p <;> first
      | (exfalso; revert hp; norm_num; done)
      | omega

theorem primes_upto_outer_spec (n r : Nat) (hr : r * r ≤ n) (hn : n ≤ 2147437383) :
    ∀ (fuel p : Nat) (a : List Int), 2 ≤ p → p ≤ r + 1 → r + 1 - p < fuel →
      SieveInv n p a →
      ∃ a', primes_upto_outer n r fuel p a = .ok a' ∧ SieveInv n (r + 1) a' := by
  intro fuel
  induction fuel with
  | zero => intro p a _ _ h; omega
  | succ fuel ih =>
    intro p a hp2 hpr hfuel hinv
    unfold primes_upto_outer
    by_cases hle : p ≤ r
    · have hrr : r ≤ r * r := Nat.le_mul_self r
      have hpp : p * p ≤ n := le_trans (Nat.mul_le_mul hle hle) hr
      have hpn : p ≤ n := by omega
      have hlen : a.length = n + 1 := hinv.1
      have hload : load a (p : Int) = .ok (a.getD p 0) := by
        rw [load_ok (by omega) (by omega)]
        simp
      have hsucc : int_succ (p : Int) = .ok ((p : Int) + 1) := int_succ_ok (by omega)
      rw [if_pos (by exact_mod_cast hle), hload]
      by_cases hflag : a.getD p 0 = 0
      · have hnext := SieveInv_skipped hinv hp2 hpn hflag
        obtain ⟨a', hrun, hfin⟩ := ih (p + 1) a (by omega) (by omega) (by omega) hnext
        refine ⟨a', ?_, hfin⟩
        rw [bind_ok, if_neg (not_not.mpr hflag), bind_pure_ok, hsucc, bind_ok]
        rw [← hrun]
        push_cast
        rfl
      · have hprime : Nat.Prime p := SieveInv_flag_prime hinv hp2 hpn hflag
        have hpp0 : (0 : Int) ≤ (p : Int) * (p : Int) := by positivity
        have hppn : (p : Int) * (p : Int) ≤ (n : Int) := by exact_mod_cast hpp
        have hsq : int32 ((p : Int) * (p : Int)) = .ok ((p : Int) * (p : Int)) :=
          int32_ok (by omega) (by omega)
        have hfit : ∀ k : Int, (p : Int) * (p : Int) ≤ k → k ≤ (n : Int) →
            (p : Int) ∣ (k - (p : Int) * (p : Int)) → k + (p : Int) ≤ 2147483647 := by
          intro k hk0 hkn hdvd
          obtain ⟨k', rfl⟩ : ∃ k' : Nat, k = (k' : Int) := ⟨k.toNat, by omega⟩
          have := stride_fits n p k' hn hprime hpp (by exact_mod_cast hkn)
            ((int_dvd_sub_sq p k').mp hdvd)
          exact_mod_cast this
        obtain ⟨b, hb, hblen, hbget⟩ :=
          primes_upto_inner_spec (n : Int) (p : Int) (by omega) ((n : Int).toNat + 2)
            ((p : Int) * (p : Int)) a hpp0 (by omega) (by omega) hfit
        have hnext := SieveInv_marked hinv hblen hbget hp2
        obtain ⟨a', hrun, hfin⟩ := ih (p + 1) b (by omega) (by omega) (by omega) hnext
        refine ⟨a', ?_, hfin⟩
        rw [bind_ok, if_pos hflag, hsq, bind_ok, hb, bind_ok, hsucc, bind_ok]
        rw [← hrun]
        push_cast
        rfl
    · have : p = r + 1 := by omega
      subst this
      rw [if_neg (by push_cast; omega)]
      exact ⟨a, rfl, hinv⟩

theorem SieveInv_final {n : Nat} {a : List Int} (hinv : SieveInv n (Nat.sqrt n + 1) a)
    (k : Nat) (hk : k ≤ n) : a.getD k 0 ≠ 0 ↔ Nat.Prime k := by
  rw [Ne, (hinv.2 k hk).2, Nat.prime_def_le_sqrt]
  constructor
  · intro h
    refine ⟨by omega, fun m hm2 hmk hdvd => h (Or.inr ⟨m, hm2, ?_, hdvd, Nat.le_sqrt.mp hmk⟩)⟩
    exact Nat.lt_succ_of_le (le_trans hmk (Nat.sqrt_le_sqrt hk))
  · rintro ⟨h2, hall⟩ (h | ⟨d, hd2, _, hdk, hdd⟩)
    · omega
    · exact hall d hd2 (Nat.le_sqrt.mpr hdd) hdk

theorem primes_upto_collect_spec (n : Nat) (a : List Int) (hlen : a.length = n + 1)
    (hn : n < 2147483647) :
    ∀ (fuel i : Nat) (acc : List Int), i ≤ n + 1 → n + 1 - i < fuel →
      primes_upto_collect n a fuel i acc =
        .ok (acc ++ ((List.range' i (n + 1 - i)).filter
          (fun k => decide (a.getD k 0 ≠ 0))).map (fun k : Nat => (k : Int))) := by
  intro fuel
  induction fuel with
  | zero => intro i acc _ h; omega
  | succ fuel ih =>
    intro i acc hi hfuel
    unfold primes_upto_collect
    by_cases hle : i ≤ n
    · have hload : load a (i : Int) = .ok (a.getD i 0) := by
        rw [load_ok (by omega) (by omega)]
        simp
      have e : n + 1 - i = (n + 1 - (i + 1)) + 1 := by omega
      have hsucc : int_succ (i : Int) = .ok (((i + 1 : Nat) : Int)) := by
        rw [int_succ_ok (by omega)]
        push_cast
        rfl
      rw [if_pos (by exact_mod_cast hle), hload, e, List.range'_succ, bind_ok]
      dsimp only
      rw [hsucc, bind_ok, ih (i + 1) _ (by omega) (by omega)]
      by_cases hflag : a.getD i 0 = 0
      · rw [List.filter_cons]
        simp only [hflag, ne_eq, not_true_eq_false, decide_False, if_false]
        simp
      · rw [List.filter_cons]
        simp only [hflag, ne_eq, not_false_eq_true, decide_True, if_true]
        simp
    · have : i = n + 1 := by omega
      subst this
      rw [if_neg (by push_cast; omega)]
      simp

theorem range_filter_prime (n : Nat) (hn : 2 ≤ n) :
    (List.range (n + 1)).filter (fun k => decide (Nat.Prime k)) =
      (List.range' 2 (n + 1 - 2)).filter (fun k => decide (Nat.Prime k)) := by
  have e : n + 1 = (n + 1 - 2) + 1 + 1 := by omega
  rw [List.range_eq_range']
  nth_rewrite 1 [e]
  rw [List.range'_succ, List.range'_succ]
  simp [Nat.not_prime_zero, Nat.not_prime_one]

theorem SieveInv_init (n : Nat) (hn : 2 ≤ n) :
    SieveInv n 2 (((List.replicate (n + 1) (1 : Int)).set 1 0).set 0 0) := by
  refine ⟨by simp, ?_⟩
  intro k hk
  rw [getD_set _ 0 k 0 (by simp), getD_set _ 1 k 0 (by simp; omega)]
  by_cases h0 : k = 0
  · simp [h0]
  · by_cases h1 : k = 1
    · simp [h1]
    · rw [if_neg h0, if_neg h1, getD_replicate _ _ _ (by omega)]
      refine ⟨Or.inr rfl, ?_⟩
      constructor
      · intro h; exact absurd h (by decide)
      · rintro (h | ⟨d, hd2, hd, _⟩) <;> omega

/-- For every `limit ≤ 2147437383`, `primes_upto` returns the ascending list of the primes
up to `limit`. -/
theorem primes_upto_eq (limit : Int) (hlim : limit ≤ 2147437383) :
    primes_upto limit = .ok (primeList limit) := by
  unfold primes_upto
  by_cases hlt : limit < 2
  · rw [if_pos hlt]
    have h : limit.toNat = 0 ∨ limit.toNat = 1 := by omega
    rcases h with h | h <;> simp [primeList, h, List.range_succ, Nat.not_prime_zero,
      Nat.not_prime_one]
  · rw [if_neg hlt]
    obtain ⟨n, rfl⟩ : ∃ n : Nat, limit = (n : Int) := ⟨limit.toNat, by omega⟩
    have hn2 : 2 ≤ n := by omega
    have hr : isqrt (n : Int) = (Nat.sqrt n : Int) := by rw [isqrt_eq_sqrt]; simp
    have hinit := SieveInv_init n hn2
    have hnb : n ≤ 2147437383 := by omega
    have hsq : Nat.sqrt n ≤ n := Nat.sqrt_le_self n
    obtain ⟨a, hrun, hfin⟩ := primes_upto_outer_spec n (Nat.sqrt n) (Nat.sqrt_le n) hnb
      (Nat.sqrt n + 2) 2 _ (le_refl 2)
      (by have := Nat.sqrt_pos.mpr (show 0 < n by omega); omega) (by omega) hinit
    have hcollect := primes_upto_collect_spec n a hfin.1 (by omega) (n + 2) 2 []
      (by omega) (by omega)
    dsimp only
    rw [int_succ_ok (by omega), bind_ok, mkVector_ok 1 (by omega), bind_ok,
      store_ok 0 (by decide) (by simp; omega), bind_ok,
      store_ok 0 (le_refl 0) (by simp), bind_ok, hr,
      int32_ok (by omega) (by omega), bind_ok]
    have e1 : ((n : Int) + 1).toNat = n + 1 := by omega
    have e2 : ((Nat.sqrt n : Nat) : Int).toNat + 2 = Nat.sqrt n + 2 := by simp
    have e3 : (n : Int).toNat + 2 = n + 2 := by simp
    have e4 : (0 : Int).toNat = 0 := rfl
    have e5 : (1 : Int).toNat = 1 := rfl
    have e6 : (2 : Int) = ((2 : Nat) : Int) := rfl
    rw [e1, e2, e3, e4, e5, e6, hrun, bind_ok]
    rw [hcollect, primeList, Int.toNat_ofNat, range_filter_prime n hn2]
    simp only [List.nil_append]
    congr 2
    apply List.filter_congr
    intro k hk
    rw [List.mem_range'_1] at hk
    have := SieveInv_final hfin k (by omega)
    simp only [decide_eq_decide]
    exact this

theorem mem_primeList (limit : Int) (x : Int) :
    x ∈ primeList limit ↔ Nat.Prime x.toNat ∧ x ≤ limit := by
  unfold primeList
  simp only [List.mem_map, List.mem_filter, List.mem_range, decide_eq_true_eq]
  constructor
  · rintro ⟨k, ⟨hk, hp⟩, rfl⟩
    refine ⟨by simpa using hp, ?_⟩
    have := hp.two_le
    omega
  · rintro ⟨hp, hle⟩
    have := hp.two_le
    exact ⟨x.toNat, ⟨by omega, hp⟩, by omega⟩

theorem primeList_sorted (limit : Int) : (primeList limit).Sorted (· < ·) := by
  unfold primeList
  apply List.Pairwise.map (R := (· < ·))
  · intro a b h
    exact_mod_cast h
  · exact List.Pairwise.filter _ (List.pairwise_lt_range _)

/-! ## `T_via_sieve` is the sieve restricted to odd numbers -/

theorem odd_start (i : Int) : ((2 * i + 1) * (2 * i + 1) - 1) / 2 = 2 * i * i + 2 * i := by
  have h : (2 * i + 1) * (2 * i + 1) - 1 = 2 * (2 * i * i + 2 * i) := by ring
  rw [h, Int.mul_ediv_cancel_left _ (by norm_num)]

/-- Slot `k` lies on the stride of `p = 2i+1` from `(p*p-1)/2` exactly when `2k+1` is a
multiple of `p` not below `p*p`. -/
theorem odd_stride_iff (i k : Nat) :
    ((2 * (i : Int) + 1) * (2 * (i : Int) + 1) - 1) / 2 ≤ (k : Int) ∧
      (2 * (i : Int) + 1) ∣ (k : Int) - ((2 * (i : Int) + 1) * (2 * (i : Int) + 1) - 1) / 2 ↔
    (2 * i + 1) * (2 * i + 1) ≤ 2 * k + 1 ∧ (2 * i + 1) ∣ (2 * k + 1) := by
  rw [odd_start]
  have hle : (2 * (i : Int) * i + 2 * i ≤ (k : Int)) ↔ (2 * i + 1) * (2 * i + 1) ≤ 2 * k + 1 := by
    have e : (2 * i + 1) * (2 * i + 1) = 4 * (i * i) + 4 * i + 1 := by ring
    have e' : 2 * (i : Int) * i = 2 * ((i * i : Nat) : Int) := by push_cast; ring
    rw [e, e']
    omega
  have hcop : IsCoprime (2 * (i : Int) + 1) 2 := ⟨1, -(i : Int), by ring⟩
  have hdvd : ((2 * (i : Int) + 1) ∣ (k : Int) - (2 * (i : Int) * i + 2 * i)) ↔
      (2 * i + 1) ∣ (2 * k + 1) := by
    have e : (2 * (k : Int) + 1) - (2 * (i : Int) + 1) * (2 * (i : Int) + 1) =
        ((k : Int) - (2 * (i : Int) * i + 2 * i)) * 2 := by ring
    have h1 : ((2 * (i : Int) + 1) ∣ (k : Int) - (2 * (i : Int) * i + 2 * i)) ↔
        (2 * (i : Int) + 1) ∣ ((k : Int) - (2 * (i : Int) * i + 2 * i)) * 2 :=
      ⟨fun h => Dvd.dvd.mul_right h 2, fun h => hcop.dvd_of_dvd_mul_right h⟩
    rw [h1, ← e, dvd_sub_left (dvd_mul_right _ _)]
    have h2 : (2 * (i : Int) + 1) = ((2 * i + 1 : Nat) : Int) := by push_cast; rfl
    have h3 : (2 * (k : Int) + 1) = ((2 * k + 1 : Nat) : Int) := by push_cast; rfl
    rw [h2, h3]
    exact Int.natCast_dvd_natCast
  rw [hle, hdvd]

theorem OddSieveInv_marked {N i : Nat} {a a' : List Int} (hinv : OddSieveInv N i a)
    (hlen : a'.length = a.length)
    (hget : ∀ k : Nat, a'.getD k 0 =
      if (((2 * (i : Int) + 1) * (2 * (i : Int) + 1) - 1) / 2 ≤ (k : Int) ∧
          (k : Int) ≤ ((N : Int) + 1) - 1 ∧
          (2 * (i : Int) + 1) ∣
            ((k : Int) - ((2 * (i : Int) + 1) * (2 * (i : Int) + 1) - 1) / 2))
      then 0 else a.getD k 0)
    (hi : 1 ≤ i) : OddSieveInv N (i + 1) a' := by
  obtain ⟨hl, hk⟩ := hinv
  refine ⟨by rw [hlen, hl], ?_⟩
  intro k hkN
  obtain ⟨h01, hz⟩ := hk k hkN
  have hcond : (((2 * (i : Int) + 1) * (2 * (i : Int) + 1) - 1) / 2 ≤ (k : Int) ∧
      (k : Int) ≤ ((N : Int) + 1) - 1 ∧
      (2 * (i : Int) + 1) ∣
        ((k : Int) - ((2 * (i : Int) + 1) * (2 * (i : Int) + 1) - 1) / 2)) ↔
      ((2 * i + 1) * (2 * i + 1) ≤ 2 * k + 1 ∧ (2 * i + 1) ∣ (2 * k + 1)) := by
    rw [← odd_stride_iff]
    constructor
    · rintro ⟨h1, _, h3⟩
      exact ⟨h1, h3⟩
    · rintro ⟨h1, h3⟩
      exact ⟨h1, by omega, h3⟩
  rw [hget k]
  by_cases hc : (2 * i + 1) * (2 * i + 1) ≤ 2 * k + 1 ∧ (2 * i + 1) ∣ (2 * k + 1)
  · rw [if_pos (hcond.mpr hc)]
    exact ⟨Or.inl rfl, fun _ => Or.inr ⟨i, hi, Nat.lt_succ_self i, hc.2, hc.1⟩, fun _ => rfl⟩
  · rw [if_neg (fun h => hc (hcond.mp h))]
    refine ⟨h01, hz.trans ?_⟩
    constructor
    · rintro (h | ⟨j, hj1, hji, hjk, hjj⟩)
      · exact Or.inl h
      · exact Or.inr ⟨j, hj1, Nat.lt_succ_of_lt hji, hjk, hjj⟩
    · rintro (h | ⟨j, hj1, hji, hjk, hjj⟩)
      · exact Or.inl h
      · rcases Nat.lt_or_ge j i with hlt | hge
        · exact Or.inr ⟨j, hj1, hlt, hjk, hjj⟩
        · have : j = i := le_antisymm (Nat.lt_succ_iff.mp hji) hge
          subst this
          exact absurd ⟨hjj, hjk⟩ hc

theorem OddSieveInv_skipped {N i : Nat} {a : List Int} (hinv : OddSieveInv N i a)
    (hi : 1 ≤ i) (hiN : i ≤ N) (h0 : a.getD i 0 = 0) : OddSieveInv N (i + 1) a := by
  obtain ⟨hl, hk⟩ := hinv
  refine ⟨hl, ?_⟩
  intro k hkN
  obtain ⟨h01, hz⟩ := hk k hkN
  refine ⟨h01, hz.trans ?_⟩
  constructor
  · rintro (h | ⟨j, hj1, hji, hjk, hjj⟩)
    · exact Or.inl h
    · exact Or.inr ⟨j, hj1, Nat.lt_succ_of_lt hji, hjk, hjj⟩
  · rintro (h | ⟨j, hj1, hji, hjk, hjj⟩)
    · exact Or.inl h
    · rcases Nat.lt_or_ge j i with hlt | hge
      · exact Or.inr ⟨j, hj1, hlt, hjk, hjj⟩
      · have : j = i := le_antisymm (Nat.lt_succ_iff.mp hji) hge
        subst this
        rcases ((hk j hiN).2.mp h0) with h | ⟨e, he1, hej, hedv, hee⟩
        · omega
        · refine Or.inr ⟨e, he1, hej, dvd_trans hedv hjk, ?_⟩
          have : 2 * j + 1 ≤ (2 * j + 1) * (2 * j + 1) := Nat.le_mul_self _
          omega

/-- A slot still flagged when the outer loop reaches it holds a prime. -/
theorem OddSieveInv_flag_iff_prime {N i : Nat} {a : List Int} (hinv : OddSieveInv N i a)
    (hi : 1 ≤ i) (hiN : i ≤ N) : a.getD i 0 ≠ 0 ↔ Nat.Prime (2 * i + 1) := by
  rw [Ne, (hinv.2 i hiN).2]
  constructor
  · intro h
    by_contra hnp
    apply h
    right
    have hpos : 0 < 2 * i + 1 := by omega
    have hq : Nat.Prime (Nat.minFac (2 * i + 1)) := Nat.minFac_prime (by omega)
    have hdvd : Nat.minFac (2 * i + 1) ∣ 2 * i + 1 := Nat.minFac_dvd _
    have hsq : Nat.minFac (2 * i + 1) * Nat.minFac (2 * i + 1) ≤ 2 * i + 1 := by
      have := Nat.minFac_sq_le_self hpos hnp
      rwa [sq] at this
    generalize Nat.minFac (2 * i + 1) = q at hq hdvd hsq
    have hodd : q % 2 = 1 := by
      rcases hq.eq_two_or_odd with h2 | h2
      · subst h2; omega
      · exact h2
    have h3 : 3 ≤ q := by have := hq.two_le; omega
    have hq2 : 2 * (q / 2) + 1 = q := by omega
    have hlt : q < 2 * i + 1 := by nlinarith
    exact ⟨q / 2, by omega, by omega, by rw [hq2]; exact hdvd, by rw [hq2]; exact hsq⟩
  · rintro hp (h | ⟨j, hj1, hji, hjk, _⟩)
    · omega
    · rcases (Nat.dvd_prime hp).mp hjk with h | h <;> omega

/-- A prime `2j+1` with `j ≤ 23173` is at most `46337`, so its square is in the range of
`int`. -/
theorem odd_prime_square_fits (j : Nat) (hj : j ≤ 23173) (hp : Nat.Prime (2 * j + 1)) :
    (2 * j + 1) * (2 * j + 1) ≤ 2147483647 := by
  have hj' : j ≤ 23168 := by
    by_contra hgt
    have h1 : 23169 ≤ j := by omega
    interval_cases j <;> norm_num at hp
  have h2 : 2 * j + 1 ≤ 46337 := by omega
  calc (2 * j + 1) * (2 * j + 1) ≤ 46337 * 46337 := Nat.mul_le_mul h2 h2
    _ ≤ 2147483647 := by norm_num

/-- One iteration of the outer loop of `T_via_sieve` at a slot `i ≤ max_i` whose square,
if the slot is flagged, is in the range of `int`. -/
theorem T_via_sieve_outer_step (N m : Nat) (hmN : m ≤ N) (hN : N + 2 * m + 1 ≤ 2147483647)
    (fuel i : Nat) (a : List Int) (hi1 : 1 ≤ i) (him : i ≤ m) (hinv : OddSieveInv N i a)
    (hsq : Nat.Prime (2 * i + 1) → (2 * i + 1) * (2 * i + 1) ≤ 2147483647) :
    ∃ a', OddSieveInv N (i + 1) a' ∧
      ∀ r, T_via_sieve_outer ((N : Int) + 1) m fuel ((i + 1 : Nat) : Int) a' = r →
        T_via_sieve_outer ((N : Int) + 1) m (fuel + 1) i a = r := by
  have hlen : a.length = N + 1 := hinv.1
  have hload : load a (i : Int) = .ok (a.getD i 0) := by
    rw [load_ok (by omega) (by omega)]
    simp
  have hsucc : int_succ (i : Int) = .ok (((i + 1 : Nat) : Int)) := by
    rw [int_succ_ok (by omega)]
    push_cast
    rfl
  by_cases hflag : a.getD i 0 = 0
  · refine ⟨a, OddSieveInv_skipped hinv hi1 (by omega) hflag, ?_⟩
    intro r hr
    unfold T_via_sieve_outer
    rw [if_pos (by exact_mod_cast him), hload, bind_ok, if_pos hflag, hsucc, bind_ok]
    exact hr
  · have hp := (OddSieveInv_flag_iff_prime hinv hi1 (by omega)).mp hflag
    have hfits : (2 * (i : Int) + 1) * (2 * (i : Int) + 1) ≤ 2147483647 := by
      exact_mod_cast hsq hp
    have hpos : (0 : Int) ≤ (2 * (i : Int) + 1) * (2 * (i : Int) + 1) := by positivity
    have hstart : (0 : Int) ≤ ((2 * (i : Int) + 1) * (2 * (i : Int) + 1) - 1) / 2 := by
      rw [odd_start]
      positivity
    obtain ⟨b, hb, hblen, hbget⟩ :=
      primes_upto_inner_spec (((N : Int) + 1) - 1) (2 * (i : Int) + 1) (by omega)
        (((N : Int) + 1).toNat + 2)
        (((2 * (i : Int) + 1) * (2 * (i : Int) + 1) - 1) / 2) a hstart (by omega)
        (by omega) (by intro k _ hk _; omega)
    rw [← T_via_sieve_inner_eq] at hb
    refine ⟨b, OddSieveInv_marked hinv hblen hbget hi1, ?_⟩
    intro r hr
    unfold T_via_sieve_outer
    rw [if_pos (by exact_mod_cast him), hload, bind_ok, if_neg hflag,
      int32_ok (by omega) (by omega), bind_ok, int32_ok (by omega) hfits, bind_ok]
    dsimp only
    rw [hb, bind_ok, hsucc, bind_ok]
    exact hr

/-- The outer loop of `T_via_sieve` from slot `i` up to a slot `i0`, while the squares of
the flagged slots are in the range of `int`. -/
theorem T_via_sieve_outer_segment (N m i0 : Nat) (hmN : m ≤ N)
    (hN : N + 2 * m + 1 ≤ 2147483647) (hi0 : i0 ≤ m + 1)
    (hsq : ∀ j : Nat, j < i0 → Nat.Prime (2 * j + 1) →
      (2 * j + 1) * (2 * j + 1) ≤ 2147483647) :
    ∀ (d fuel i : Nat) (a : List Int), 1 ≤ i → i + d = i0 → OddSieveInv N i a →
      ∃ a', OddSieveInv N i0 a' ∧
        ∀ r, T_via_sieve_outer ((N : Int) + 1) m fuel (i0 : Int) a' = r →
          T_via_sieve_outer ((N : Int) + 1) m (fuel + d) i a = r := by
  intro d
  induction d with
  | zero =>
    intro fuel i a _ h hinv
    have : i = i0 := by omega
    subst this
    exact ⟨a, hinv, fun r hr => hr⟩
  | succ d ih =>
    intro fuel i a hi1 h hinv
    obtain ⟨b, hb, hstep⟩ := T_via_sieve_outer_step N m hmN hN (fuel + d) i a hi1 (by omega)
      hinv (hsq i (by omega))
    obtain ⟨a', ha', hrun⟩ := ih fuel (i + 1) b (by omega) (by omega) hb
    exact ⟨a', ha', fun r hr => hstep r (hrun r hr)⟩

/-- While the squares of the flagged slots are in the range of `int`, the outer loop of
`T_via_sieve` returns, and its array satisfies the invariant at `max_i + 1`. -/
theorem T_via_sieve_outer_spec (N m : Nat) (hmN : m ≤ N) (hN : N + 2 * m + 1 ≤ 2147483647)
    (hsq : ∀ j : Nat, j < m + 1 → Nat.Prime (2 * j + 1) →
      (2 * j + 1) * (2 * j + 1) ≤ 2147483647)
    (a : List Int) (hinv : OddSieveInv N 1 a) :
    ∃ a', T_via_sieve_outer ((N : Int) + 1) m (m + 2) 1 a = .ok a' ∧
      OddSieveInv N (m + 1) a' := by
  obtain ⟨a', ha', hrun⟩ := T_via_sieve_outer_segment N m (m + 1) hmN hN (le_refl _) hsq
    m 2 1 a (le_refl 1) (by omega) hinv
  refine ⟨a', ?_, ha'⟩
  rw [Nat.add_comm m 2]
  apply hrun
  unfold T_via_sieve_outer
  rw [if_neg (by push_cast; omega)]

/-- For `1074068552 ≤ N < 2^31 - 1`, where `max_i ≥ 23174`, the outer loop of `T_via_sieve`
does not get past slot `23174`: the slot holds the prime `46349`, whose square
`2148229801` is above `2^31 - 1`, unless an earlier stride `j += p` has already
overflowed. -/
theorem T_via_sieve_outer_overflow (N m : Nat) (hN : N < 2147483647) (hm0 : 23174 ≤ m)
    (hmN : m ≤ N) :
    ∀ (fuel i : Nat) (a : List Int), 1 ≤ i → i ≤ 23174 → m + 1 - i < fuel →
      OddSieveInv N i a →
      T_via_sieve_outer ((N : Int) + 1) m fuel i a = .error .overflow := by
  intro fuel
  induction fuel with
  | zero => intro i a _ _ h; omega
  | succ fuel ih =>
    intro i a hi1 hi hfuel hinv
    have hlen : a.length = N + 1 := hinv.1
    have hload : load a (i : Int) = .ok (a.getD i 0) := by
      rw [load_ok (by omega) (by omega)]
      simp
    have hsucc : int_succ (i : Int) = .ok (((i + 1 : Nat) : Int)) := by
      rw [int_succ_ok (by omega)]
      push_cast
      rfl
    unfold T_via_sieve_outer
    rw [if_pos (by exact_mod_cast (show i ≤ m by omega)), hload, bind_ok]
    by_cases hflag : a.getD i 0 = 0
    · have hne : i ≠ 23174 := by
        rintro rfl
        exact (OddSieveInv_flag_iff_prime hinv hi1 (by omega)).mpr (by norm_num) hflag
      rw [if_pos hflag, hsucc, bind_ok]
      exact ih (i + 1) a (by omega) (by omega) (by omega)
        (OddSieveInv_skipped hinv hi1 (by omega) hflag)
    · rw [if_neg hflag, int32_ok (by omega) (by omega), bind_ok]
      by_cases hlast : i = 23174
      · subst hlast
        rw [int32_overflow (by norm_num), bind_error]
      · have hp := (OddSieveInv_flag_iff_prime hinv hi1 (by omega)).mp hflag
        have hfits : (2 * (i : Int) + 1) * (2 * (i : Int) + 1) ≤ 2147483647 := by
          exact_mod_cast odd_prime_square_fits i (by omega) hp
        have hpos : (0 : Int) ≤ (2 * (i : Int) + 1) * (2 * (i : Int) + 1) := by positivity
        have hstart : (0 : Int) ≤ ((2 * (i : Int) + 1) * (2 * (i : Int) + 1) - 1) / 2 := by
          rw [odd_start]
          positivity
        rw [int32_ok (by omega) hfits, bind_ok]
        dsimp only
        rw [T_via_sieve_inner_eq]
        rcases primes_upto_inner_overflow_or (((N : Int) + 1) - 1) (2 * (i : Int) + 1)
          (((N : Int) + 1).toNat + 2)
          (((2 * (i : Int) + 1) * (2 * (i : Int) + 1) - 1) / 2) a with hov | heq
        · rw [hov, bind_error]
        · obtain ⟨b, hb, hblen, hbget⟩ :=
            progression_marking_T_inner_spec (((N : Int) + 1) - 1) (2 * (i : Int) + 1)
              (by omega) (((N : Int) + 1).toNat + 2)
              (((2 * (i : Int) + 1) * (2 * (i : Int) + 1) - 1) / 2) a hstart (by omega)
              (by omega)
          rw [heq, hb, bind_ok, hsucc, bind_ok]
          exact ih (i + 1) b (by omega) (by omega) (by omega)
            (OddSieveInv_marked hinv hblen hbget hi1)

theorem OddSieveInv_final {N : Nat} {a : List Int}
    (hinv : OddSieveInv N (Nat.sqrt (2 * N + 1) / 2 + 1) a) (k : Nat) (hk : k ≤ N) :
    a.getD k 0 ≠ 0 ↔ Nat.Prime (2 * k + 1) := by
  rw [Ne, (hinv.2 k hk).2, Nat.prime_def_le_sqrt]
  constructor
  · intro h
    have hk0 : k ≠ 0 := fun e => h (Or.inl e)
    refine ⟨by omega, fun d hd2 hdk hdvd => h (Or.inr ⟨d / 2, ?_⟩)⟩
    have hodd : d % 2 = 1 := by
      rcases Nat.mod_two_eq_zero_or_one d with h0 | h1
      · exfalso
        have h2 : 2 ∣ 2 * k + 1 := dvd_trans (Nat.dvd_of_mod_eq_zero h0) hdvd
        omega
      · exact h1
    have hd : 2 * (d / 2) + 1 = d := by omega
    rw [hd]
    have hsq : d ≤ Nat.sqrt (2 * N + 1) := le_trans hdk (Nat.sqrt_le_sqrt (by omega))
    refine ⟨by omega, ?_, hdvd, Nat.le_sqrt.mp hdk⟩
    exact Nat.lt_succ_of_le (Nat.div_le_div_right hsq)
  · rintro ⟨h2, hall⟩ (h | ⟨j, hj1, _, hjk, hjj⟩)
    · omega
    · exact hall (2 * j + 1) (by omega) (Nat.le_sqrt.mpr hjj) hjk

theorem oddPrimeFlags_length (N : Int) : (oddPrimeFlags N).length = (N + 1).toNat := by
  simp [oddPrimeFlags]

theorem oddPrimeFlags_getD (N : Int) (k : Nat) (hk : (k : Int) ≤ N) :
    (oddPrimeFlags N).getD k 0 = if Nat.Prime (2 * k + 1) then 1 else 0 := by
  have hk' : k < (N + 1).toNat := by omega
  simp [oddPrimeFlags, List.getD_eq_getElem?_getD, List.getElem?_map, List.getElem?_range, hk']

theorem list_eq_of_getD {l₁ l₂ : List Int} (hlen : l₁.length = l₂.length)
    (h : ∀ k : Nat, k < l₁.length → l₁.getD k 0 = l₂.getD k 0) : l₁ = l₂ := by
  apply List.ext_getElem hlen
  intro k h1 h2
  have := h k h1
  simpa [List.getD_eq_getElem?_getD, List.getElem?_eq_getElem, h1, h2] using this

theorem T_via_sieve_fill_spec (N : Nat) (hN : N < 2147483647) (a : List Int)
    (ha : a.length = N + 1) :
    ∀ (fuel n : Nat) (T : List Int), n ≤ N + 1 → T.length = N + 1 → N + 1 - n < fuel →
      ∃ T', T_via_sieve_fill N ((N : Int) + 1) a fuel n T = .ok T' ∧ T'.length = N + 1 ∧
        ∀ k : Nat, T'.getD k 0 =
          if n ≤ k ∧ k ≤ N then (if a.getD k 0 ≠ 0 then 1 else 0) else T.getD k 0 := by
  intro fuel
  induction fuel with
  | zero => intro n T _ _ h; omega
  | succ fuel ih =>
    intro n T hn hT hfuel
    unfold T_via_sieve_fill
    by_cases hle : n ≤ N
    · have hload : load a (n : Int) = .ok (a.getD n 0) := by
        rw [load_ok (by omega) (by omega)]
        simp
      have hstore : ∀ v : Int, store T (n : Int) v = .ok (T.set n v) := by
        intro v
        rw [store_ok v (by omega) (by omega)]
        simp
      have hsucc : int_succ (n : Int) = .ok (((n + 1 : Nat) : Int)) := by
        rw [int_succ_ok (by omega)]
        push_cast
        rfl
      obtain ⟨T', hrun, hlen, hget⟩ := ih (n + 1)
        (T.set n (if a.getD n 0 ≠ 0 then 1 else 0)) (by omega)
        (by rw [List.length_set]; exact hT) (by omega)
      refine ⟨T', ?_, hlen, ?_⟩
      · rw [if_pos (by exact_mod_cast hle), if_pos (by omega), hload, bind_ok]
        dsimp only
        rw [hstore, bind_ok, hsucc, bind_ok]
        exact hrun
      · intro k
        rw [hget k, getD_set _ _ _ _ (by omega)]
        by_cases hkn : k = n
        · subst hkn
          rw [if_neg (show ¬(k + 1 ≤ k ∧ k ≤ N) by omega), if_pos rfl,
            if_pos (show k ≤ k ∧ k ≤ N from ⟨le_refl _, hle⟩)]
        · rw [if_neg hkn]
          by_cases hc : n ≤ k ∧ k ≤ N
          · rw [if_pos hc, if_pos (by omega)]
          · rw [if_neg hc, if_neg (by omega)]
    · have : n = N + 1 := by omega
      subst this
      rw [if_neg (by push_cast; omega)]
      refine ⟨T, rfl, hT, ?_⟩
      intro k
      rw [if_neg (by omega)]

theorem OddSieveInv_init (N : Nat) :
    OddSieveInv N 1 ((List.replicate (N + 1) (1 : Int)).set 0 0) := by
  refine ⟨by simp, ?_⟩
  intro k hk
  rw [getD_set _ 0 k 0 (by simp)]
  by_cases h0 : k = 0
  · simp [h0]
  · rw [if_neg h0, getD_replicate _ _ _ (by omega)]
    refine ⟨Or.inr rfl, ?_⟩
    constructor
    · intro h; exact absurd h (by decide)
    · rintro (h | ⟨j, hj1, hj, _⟩) <;> omega

theorem isqrt_half (N : Nat) :
    isqrt (2 * (N : Int) + 1) / 2 = ((Nat.sqrt (2 * N + 1) / 2 : Nat) : Int) := by
  rw [isqrt_eq_sqrt]
  have : (2 * (N : Int) + 1).toNat = 2 * N + 1 := by omega
  rw [this]
  push_cast
  rfl

/-- Lines 88 to 91 of `T_via_sieve` for `1 ≤ N < 2^31 - 1`: `size` is `N + 1`, the packed
array is allocated and entry `0` cleared, `max_i` is `floor (sqrt (2N+1)) / 2`, and the
sieve loop is entered at slot `1`. -/
theorem T_via_sieve_packed_eq (N : Nat) (hN : N < 2147483647) :
    T_via_sieve_packed (2 * (N : Int) + 1) =
      (T_via_sieve_outer ((N : Int) + 1) ((Nat.sqrt (2 * N + 1) / 2 : Nat) : Int)
        (Nat.sqrt (2 * N + 1) / 2 + 2) 1 ((List.replicate (N + 1) (1 : Int)).set 0 0) >>=
          fun a => pure ((N : Int) + 1, ((Nat.sqrt (2 * N + 1) / 2 : Nat) : Int), a)) := by
  have hsize : (2 * (N : Int) + 1 + 1) / 2 = (N : Int) + 1 := by omega
  have hm : Nat.sqrt (2 * N + 1) ≤ 2 * N + 1 := Nat.sqrt_le_self _
  have e1 : ((N : Int) + 1).toNat = N + 1 := by omega
  have e4 : (0 : Int).toNat = 0 := rfl
  unfold T_via_sieve_packed
  dsimp only
  rw [hsize, narrow32_eq (by omega) (by omega), mkVector_ok 1 (by omega), bind_ok,
    store_ok 0 (le_refl 0) (by simp), bind_ok, isqrt_half,
    int32_ok (by omega) (by omega), bind_ok, Int.toNat_ofNat, e1, e4]

/-- For `0 ≤ N < 1074068552` the packed sieve returns the reference array. -/
theorem T_via_sieve_eq (N : Int) (hN : 0 ≤ N) (hlt : N < 1074068552) :
    T_via_sieve N = .ok (oddPrimeFlags N) := by
  obtain ⟨N, rfl⟩ : ∃ M : Nat, N = (M : Int) := ⟨N.toNat, by omega⟩
  by_cases h0 : N = 0
  · subst h0
    rfl
  · have hN1 : 1 ≤ N := by omega
    have hsqrt : Nat.sqrt (2 * N + 1) < 46348 := by
      rw [Nat.sqrt_lt]
      omega
    have hmN : Nat.sqrt (2 * N + 1) / 2 ≤ N := by
      have := Nat.sqrt_le_self (2 * N + 1)
      omega
    obtain ⟨a, hrun, hfin⟩ := T_via_sieve_outer_spec N (Nat.sqrt (2 * N + 1) / 2) hmN
      (by omega) (fun j hj hp => odd_prime_square_fits j (by omega) hp) _
      (OddSieveInv_init N)
    obtain ⟨T, hfill, hTlen, hTget⟩ := T_via_sieve_fill_spec N (by omega) a hfin.1 (N + 2) 0
      (List.replicate (N + 1) 0) (by omega) (by simp) (by omega)
    rw [Nat.cast_zero] at hfill
    have e1 : ((N : Int) + 1).toNat = N + 1 := by omega
    have e3 : (N : Int).toNat + 2 = N + 2 := by simp
    unfold T_via_sieve
    dsimp only
    rw [if_neg (by omega), T_via_sieve_packed_eq N (by omega), hrun, bind_ok, bind_pure_ok,
      int_succ_ok (by omega), bind_ok, mkVector_ok 0 (by omega), bind_ok, e1, e3]
    dsimp only
    rw [hfill]
    congr 1
    apply list_eq_of_getD
    · rw [hTlen, oddPrimeFlags_length, e1]
    · intro k hk
      have hkN : k ≤ N := by omega
      rw [hTget k, if_pos ⟨Nat.zero_le k, hkN⟩, oddPrimeFlags_getD _ k (by exact_mod_cast hkN)]
      by_cases hp : Nat.Prime (2 * k + 1)
      · rw [if_pos ((OddSieveInv_final hfin k hkN).mpr hp), if_pos hp]
      · rw [if_neg (fun h => hp ((OddSieveInv_final hfin k hkN).mp h)), if_neg hp]

/-- For every `N` with `1074068552 ≤ N < 2^31 - 1`, `T_via_sieve` does not return: the
sieve loop ends in an overflow, of `46349 * 46349` at the latest. -/
theorem T_via_sieve_overflow (N : Int) (h0 : 1074068552 ≤ N) (h1 : N < 2147483647) :
    T_via_sieve N = .error .overflow := by
  obtain ⟨N, rfl⟩ : ∃ M : Nat, N = (M : Int) := ⟨N.toNat, by omega⟩
  have hm0 : 23174 ≤ Nat.sqrt (2 * N + 1) / 2 := by
    have : 46348 ≤ Nat.sqrt (2 * N + 1) := by
      rw [Nat.le_sqrt]
      omega
    omega
  have hmN : Nat.sqrt (2 * N + 1) / 2 ≤ N := by
    have := Nat.sqrt_le_self (2 * N + 1)
    omega
  have hrun := T_via_sieve_outer_overflow N (Nat.sqrt (2 * N + 1) / 2) (by omega) hm0 hmN
    (Nat.sqrt (2 * N + 1) / 2 + 2) 1 _ (le_refl 1) (by omega) (by omega) (OddSieveInv_init N)
  rw [Nat.cast_one] at hrun
  unfold T_via_sieve
  dsimp only
  rw [if_neg (by omega), T_via_sieve_packed_eq N (by omega), hrun, bind_error, bind_error]

/-- At `N = 2^31 - 1` the size `2^31` of the packed array does not fit `int`: converted,
it is negative, and the vector cannot be constructed. -/
theorem T_via_sieve_int_max : T_via_sieve 2147483647 = .error .badAlloc := by
  unfold T_via_sieve T_via_sieve_packed
  dsimp only
  rw [if_neg (by norm_num)]
  have e : narrow32 ((2 * 2147483647 + 1 + 1) / 2) = -2147483648 := by
    unfold narrow32
    norm_num
  rw [e]
  unfold mkVector
  rw [if_pos (by norm_num), bind_error, bind_error]

/-! ## Progressions of composite indices -/

/-- Index `k` lies on the progression of an odd `p` from `(3p-1)/2` exactly when `2k+1`
is a multiple of `p` not below `3p`. -/
theorem progression_iff (p k : Int) (hodd : p % 2 = 1) :
    ((3 * p - 1) / 2 ≤ k ∧ p ∣ k - (3 * p - 1) / 2) ↔ (3 * p ≤ 2 * k + 1 ∧ p ∣ 2 * k + 1) := by
  have hcop : IsCoprime p 2 := ⟨1, -(p / 2), by omega⟩
  have e : 2 * k + 1 - 3 * p = (k - (3 * p - 1) / 2) * 2 := by omega
  have h1 : (p ∣ k - (3 * p - 1) / 2) ↔ p ∣ (k - (3 * p - 1) / 2) * 2 :=
    ⟨fun h => Dvd.dvd.mul_right h 2, fun h => hcop.dvd_of_dvd_mul_right h⟩
  rw [h1, ← e, dvd_sub_left (dvd_mul_left p 3)]
  constructor
  · rintro ⟨h, hd⟩
    exact ⟨by omega, hd⟩
  · rintro ⟨h, hd⟩
    exact ⟨by omega, hd⟩

theorem odd_of_prime_ge_three {p : Int} (hp : Nat.Prime p.toNat) (h3 : 3 ≤ p) : p % 2 = 1 := by
  rcases hp.eq_two_or_odd with h | h
  · omega
  · omega

/-- A hit of the progression test exhibits a proper factorisation of `2k+1`. -/
theorem not_prime_of_progression {p : Int} {k : Nat} (hp : Nat.Prime p.toNat) (h3 : 3 ≤ p)
    (hbase : (3 * p - 1) / 2 ≤ (k : Int)) (hdvd : p ∣ (k : Int) - (3 * p - 1) / 2) :
    ¬ Nat.Prime (2 * k + 1) := by
  obtain ⟨hle, hd⟩ := (progression_iff p k (odd_of_prime_ge_three hp h3)).mp ⟨hbase, hdvd⟩
  intro hprime
  have hd' : p.toNat ∣ 2 * k + 1 := by
    have h1 : p = ((p.toNat : Nat) : Int) := by omega
    have h2 : 2 * (k : Int) + 1 = ((2 * k + 1 : Nat) : Int) := by push_cast; rfl
    rw [h1, h2] at hd
    exact Int.natCast_dvd_natCast.mp hd
  rcases (Nat.dvd_prime hprime).mp hd' with h | h <;> omega

/-- A composite `2k+1` is hit by the progression of its least prime factor. -/
theorem progression_of_not_prime {k : Nat} (hk : 1 ≤ k) (hnp : ¬ Nat.Prime (2 * k + 1)) :
    ∃ q : Nat, Nat.Prime q ∧ 3 ≤ q ∧ q * q ≤ 2 * k + 1 ∧
      (3 * (q : Int) - 1) / 2 ≤ (k : Int) ∧ (q : Int) ∣ (k : Int) - (3 * (q : Int) - 1) / 2 := by
  have hpos : 0 < 2 * k + 1 := by omega
  have hq : Nat.Prime (Nat.minFac (2 * k + 1)) := Nat.minFac_prime (by omega)
  have hdvd : Nat.minFac (2 * k + 1) ∣ 2 * k + 1 := Nat.minFac_dvd _
  have hsq : Nat.minFac (2 * k + 1) * Nat.minFac (2 * k + 1) ≤ 2 * k + 1 := by
    have := Nat.minFac_sq_le_self hpos hnp
    rwa [sq] at this
  generalize Nat.minFac (2 * k + 1) = q at hq hdvd hsq
  have hodd : q % 2 = 1 := by
    rcases hq.eq_two_or_odd with h | h
    · subst h; omega
    · exact h
  have h3 : 3 ≤ q := by have := hq.two_le; omega
  have h3q : 3 * q ≤ 2 * k + 1 := le_trans (Nat.mul_le_mul_right q h3) hsq
  have hint : (3 * (q : Int) ≤ 2 * (k : Int) + 1 ∧ (q : Int) ∣ 2 * (k : Int) + 1) := by
    refine ⟨by exact_mod_cast h3q, ?_⟩
    have h2 : 2 * (k : Int) + 1 = ((2 * k + 1 : Nat) : Int) := by push_cast; rfl
    rw [h2]
    exact Int.natCast_dvd_natCast.mpr hdvd
  obtain ⟨hb, hd⟩ := (progression_iff (q : Int) k (by omega)).mpr hint
  exact ⟨q, hq, h3, hsq, hb, hd⟩

/-! ## `T_from_formula` -/

theorem T_from_formula_loop_zero_or_one (n : Int) (l : List Int) :
    T_from_formula_loop n l = 0 ∨ T_from_formula_loop n l = 1 := by
  induction l with
  | nil => exact Or.inr rfl
  | cons p rest ih =>
    unfold T_from_formula_loop
    dsimp only
    split_ifs
    · exact ih
    · exact Or.inr rfl
    · exact Or.inl rfl
    · exact ih

/-- The loop answers `0` only on a hit: some listed `p ≥ 3` has `n` on its progression. -/
theorem T_from_formula_loop_eq_zero {n : Int} {l : List Int} (h : T_from_formula_loop n l = 0) :
    ∃ p ∈ l, 3 ≤ p ∧ (3 * p - 1) / 2 ≤ n ∧ p ∣ n - (3 * p - 1) / 2 := by
  induction l with
  | nil =>
    have h1 : (1 : Int) = 0 := h
    exact absurd h1 (by decide)
  | cons p rest ih =>
    unfold T_from_formula_loop at h
    dsimp only at h
    split_ifs at h with h1 h2 h3
    · obtain ⟨q, hq, hrest⟩ := ih h
      exact ⟨q, List.mem_cons_of_mem _ hq, hrest⟩
    · exact absurd h (by decide)
    · exact ⟨p, List.mem_cons_self _ _, by omega, by omega, Int.dvd_of_emod_eq_zero h3.2⟩
    · obtain ⟨q, hq, hrest⟩ := ih h
      exact ⟨q, List.mem_cons_of_mem _ hq, hrest⟩

/-- On an ascending list the early `break` loses no hit. -/
theorem T_from_formula_loop_hit {n : Int} {l : List Int} (hsorted : l.Pairwise (· ≤ ·))
    {p : Int} (hp : p ∈ l) (h3 : 3 ≤ p) (hbase : (3 * p - 1) / 2 ≤ n)
    (hdvd : p ∣ n - (3 * p - 1) / 2) : T_from_formula_loop n l = 0 := by
  induction l with
  | nil => exact absurd hp (List.not_mem_nil _)
  | cons q rest ih =>
    rw [List.pairwise_cons] at hsorted
    unfold T_from_formula_loop
    dsimp only
    rcases List.mem_cons.mp hp with heq | hmem
    · subst heq
      rw [if_neg (by omega), if_neg (by omega),
        if_pos ⟨by omega, Int.emod_eq_zero_of_dvd hdvd⟩]
    · have hqp : q ≤ p := hsorted.1 p hmem
      split_ifs
      · exact ih hsorted.2 hmem
      · omega
      · rfl
      · exact ih hsorted.2 hmem

/-- Core of the formula method: for `n ≥ 2`, on an ascending list of primes that holds
every prime `p` with `p * p ≤ 2n+1`, the loop decides the primality of `2n+1`. -/
theorem T_from_formula_loop_correct (n : Nat) (hn : 2 ≤ n) (l : List Int)
    (hsorted : l.Pairwise (· ≤ ·)) (hprimes : ∀ p ∈ l, Nat.Prime p.toNat)
    (hcover : ∀ q : Nat, Nat.Prime q → q * q ≤ 2 * n + 1 → (q : Int) ∈ l) :
    T_from_formula_loop n l = if Nat.Prime (2 * n + 1) then 1 else 0 := by
  by_cases hprime : Nat.Prime (2 * n + 1)
  · rw [if_pos hprime]
    rcases T_from_formula_loop_zero_or_one n l with h0 | h1
    · obtain ⟨p, hp, h3, hb, hd⟩ := T_from_formula_loop_eq_zero h0
      exact absurd hprime (not_prime_of_progression (hprimes p hp) h3 hb hd)
    · exact h1
  · rw [if_neg hprime]
    obtain ⟨q, hq, h3, hsq, hb, hd⟩ := progression_of_not_prime (by omega) hprime
    exact T_from_formula_loop_hit hsorted (hcover q hq hsq) (by exact_mod_cast h3) hb hd

/-! ## `progression_marking_T` -/

theorem progression_marking_T_loop_spec (N : Nat) :
    ∀ (l : List Int) (T : List Int), l.Pairwise (· ≤ ·) → T.length = N + 1 →
      ∃ T', progression_marking_T_loop N l T = .ok T' ∧ T'.length = N + 1 ∧
        ∀ k : Nat, k ≤ N →
          ((∃ p ∈ l, 3 ≤ p ∧ (3 * p - 1) / 2 ≤ (k : Int) ∧ p ∣ (k : Int) - (3 * p - 1) / 2) →
            T'.getD k 0 = 0) ∧
          ((¬ ∃ p ∈ l, 3 ≤ p ∧ (3 * p - 1) / 2 ≤ (k : Int) ∧
              p ∣ (k : Int) - (3 * p - 1) / 2) → T'.getD k 0 = T.getD k 0) := by
  intro l
  induction l with
  | nil =>
    intro T _ hT
    refine ⟨T, rfl, hT, fun k _ => ⟨?_, fun _ => rfl⟩⟩
    rintro ⟨p, hp, _⟩
    exact absurd hp (List.not_mem_nil _)
  | cons p rest ih =>
    intro T hsorted hT
    rw [List.pairwise_cons] at hsorted
    unfold progression_marking_T_loop
    dsimp only
    by_cases h3 : p < 3
    · rw [if_pos h3]
      obtain ⟨T', hrun, hlen, hget⟩ := ih T hsorted.2 hT
      refine ⟨T', hrun, hlen, fun k hk => ?_⟩
      have hiff : (∃ q ∈ p :: rest, 3 ≤ q ∧ (3 * q - 1) / 2 ≤ (k : Int) ∧
          q ∣ (k : Int) - (3 * q - 1) / 2) ↔
          (∃ q ∈ rest, 3 ≤ q ∧ (3 * q - 1) / 2 ≤ (k : Int) ∧
            q ∣ (k : Int) - (3 * q - 1) / 2) := by
        constructor
        · rintro ⟨q, hq, hq3, hrest⟩
          rcases List.mem_cons.mp hq with heq | hmem
          · omega
          · exact ⟨q, hmem, hq3, hrest⟩
        · rintro ⟨q, hq, hrest⟩
          exact ⟨q, List.mem_cons_of_mem _ hq, hrest⟩
      rw [hiff]
      exact hget k hk
    · rw [if_neg h3]
      by_cases hb : (3 * p - 1) / 2 > (N : Int)
      · rw [if_pos hb]
        refine ⟨T, rfl, hT, fun k hk => ⟨?_, fun _ => rfl⟩⟩
        rintro ⟨q, hq, hq3, hqb, _⟩
        exfalso
        have hpq : p ≤ q := by
          rcases List.mem_cons.mp hq with heq | hmem
          · omega
          · exact hsorted.1 q hmem
        omega
      · rw [if_neg hb]
        obtain ⟨T1, hrun1, hlen1, hget1⟩ :=
          progression_marking_T_inner_spec (N : Int) p (by omega) ((N : Int).toNat + 2)
            ((3 * p - 1) / 2) T (by omega) (by omega) (by omega)
        obtain ⟨T', hrun, hlen, hget⟩ := ih T1 hsorted.2 (by rw [hlen1, hT])
        refine ⟨T', ?_, hlen, fun k hk => ?_⟩
        · rw [hrun1, bind_ok]
          exact hrun
        · obtain ⟨hhit, hmiss⟩ := hget k hk
          by_cases hrest : ∃ q ∈ rest, 3 ≤ q ∧ (3 * q - 1) / 2 ≤ (k : Int) ∧
              q ∣ (k : Int) - (3 * q - 1) / 2
          · refine ⟨fun _ => hhit hrest, fun hno => ?_⟩
            obtain ⟨q, hq, hqr⟩ := hrest
            exact absurd ⟨q, List.mem_cons_of_mem _ hq, hqr⟩ hno
          · rw [hmiss hrest, hget1 k]
            constructor
            · rintro ⟨q, hq, hq3, hqb, hqd⟩
              rcases List.mem_cons.mp hq with heq | hmem
              · subst heq
                rw [if_pos ⟨hqb, by exact_mod_cast hk, hqd⟩]
              · exact absurd ⟨q, hmem, hq3, hqb, hqd⟩ hrest
            · intro hno
              rw [if_neg]
              rintro ⟨hqb, _, hqd⟩
              exact hno ⟨p, List.mem_cons_self _ _, by omega, hqb, hqd⟩

/-- On the initial array, marking with the primes up to a cutoff `pm ≥ 0` whose square
reaches `2N+1` gives the reference array. -/
theorem progression_marking_T_loop_full (N : Nat) (pm : Int) (hpm0 : 0 ≤ pm)
    (hpmsq : 2 * (N : Int) + 1 ≤ pm * pm) :
    progression_marking_T_loop N (primeList pm) ((List.replicate (N + 1) (1 : Int)).set 0 0) =
      .ok (oddPrimeFlags N) := by
  have e1 : ((N : Int) + 1).toNat = N + 1 := by omega
  obtain ⟨T, hrun, hlen, hget⟩ := progression_marking_T_loop_spec N (primeList pm)
    ((List.replicate (N + 1) (1 : Int)).set 0 0)
    ((List.Pairwise.imp le_of_lt) (primeList_sorted pm)) (by simp)
  rw [hrun]
  congr 1
  apply list_eq_of_getD
  · rw [hlen, oddPrimeFlags_length, e1]
  · intro k hk
    have hkN : k ≤ N := by omega
    obtain ⟨hhit, hmiss⟩ := hget k hkN
    rw [oddPrimeFlags_getD _ k (by exact_mod_cast hkN)]
    by_cases hprime : Nat.Prime (2 * k + 1)
    · rw [if_pos hprime, hmiss]
      · have hk0 : k ≠ 0 := by
          rintro rfl
          exact Nat.not_prime_one hprime
        rw [getD_set _ 0 k 0 (by simp), if_neg hk0, getD_replicate _ _ _ (by omega)]
      · rintro ⟨p, hp, h3, hb, hd⟩
        exact not_prime_of_progression ((mem_primeList pm p).mp hp).1 h3 hb hd hprime
    · rw [if_neg hprime]
      by_cases hk0 : k = 0
      · by_cases hex : ∃ p ∈ primeList pm, 3 ≤ p ∧ (3 * p - 1) / 2 ≤ (k : Int) ∧
            p ∣ (k : Int) - (3 * p - 1) / 2
        · exact hhit hex
        · rw [hmiss hex, getD_set _ 0 k 0 (by simp), if_pos hk0]
      · obtain ⟨q, hq, h3, hsq, hb, hd⟩ := progression_of_not_prime (by omega) hprime
        apply hhit
        refine ⟨(q : Int), (mem_primeList pm q).mpr ⟨by simpa using hq, ?_⟩,
          by exact_mod_cast h3, hb, hd⟩
        by_contra hlt
        have hlt' : pm < (q : Int) := by omega
        have h1 : (q : Int) * (q : Int) ≤ 2 * (k : Int) + 1 := by exact_mod_cast hsq
        have h2 : (k : Int) ≤ (N : Int) := by exact_mod_cast hkN
        nlinarith

/-- Lines 65 to 68 of `progression_marking_T` for `0 ≤ N < 2^31 - 1` and a cutoff
`0 ≤ q ≤ 2147437383`: the array is allocated, entry `0` cleared, and the marking loop runs
over the primes up to `q`. -/
theorem progression_marking_T_given (N : Int) (hN : 0 ≤ N) (hN1 : N < 2147483647) (q : Int)
    (hq : 0 ≤ q) (hq1 : q ≤ 2147437383) :
    progression_marking_T N q =
      progression_marking_T_loop N (primeList q)
        ((List.replicate (N + 1).toNat 1).set 0 0) := by
  unfold progression_marking_T
  rw [int_succ_ok hN1, bind_ok, mkVector_ok 1 (by omega), bind_ok,
    store_ok 0 (le_refl 0) (by simp; omega), bind_ok, if_neg (by omega), bind_pure_ok]
  dsimp only
  rw [primes_upto_eq q hq1, bind_ok]
  rfl

/-- Lines 65 to 68 of `progression_marking_T` for `0 ≤ N ≤ 1073718691` and a negative
cutoff: the cutoff becomes `2N+1`. -/
theorem progression_marking_T_default (N : Int) (hN : 0 ≤ N) (hN1 : N ≤ 1073718691)
    (p_max : Int) (hneg : p_max < 0) :
    progression_marking_T N p_max =
      progression_marking_T_loop N (primeList (2 * N + 1))
        ((List.replicate (N + 1).toNat 1).set 0 0) := by
  unfold progression_marking_T
  rw [int_succ_ok (by omega), bind_ok, mkVector_ok 1 (by omega), bind_ok,
    store_ok 0 (le_refl 0) (by simp; omega), bind_ok, if_pos hneg,
    int32_ok (by omega) (by omega), bind_ok]
  dsimp only
  rw [primes_upto_eq (2 * N + 1) (by omega), bind_ok]
  rfl

/-- For `0 ≤ N < 2^31 - 1` and a cutoff `0 ≤ p_max ≤ 2147437383` whose square reaches
`2N+1`, progression marking returns the reference array. -/
theorem progression_marking_T_eq (N : Int) (hN : 0 ≤ N) (hN1 : N < 2147483647) (p_max : Int)
    (hp0 : 0 ≤ p_max) (hp1 : p_max ≤ 2147437383) (hcut : 2 * N + 1 ≤ p_max * p_max) :
    progression_marking_T N p_max = .ok (oddPrimeFlags N) := by
  obtain ⟨N, rfl⟩ : ∃ M : Nat, N = (M : Int) := ⟨N.toNat, by omega⟩
  have e1 : ((N : Int) + 1).toNat = N + 1 := by omega
  rw [progression_marking_T_given N hN hN1 p_max hp0 hp1, e1]
  exact progression_marking_T_loop_full N p_max hp0 hcut

/-- For `0 ≤ N ≤ 1073718691` and a negative cutoff, progression marking returns the
reference array. -/
theorem progression_marking_T_eq_default (N : Int) (hN : 0 ≤ N) (hN1 : N ≤ 1073718691)
    (p_max : Int) (hneg : p_max < 0) :
    progression_marking_T N p_max = .ok (oddPrimeFlags N) := by
  obtain ⟨N, rfl⟩ : ∃ M : Nat, N = (M : Int) := ⟨N.toNat, by omega⟩
  have e1 : ((N : Int) + 1).toNat = N + 1 := by omega
  rw [progression_marking_T_default N hN hN1 p_max hneg, e1]
  exact progression_marking_T_loop_full N (2 * N + 1) (by omega) (by nlinarith)

/-! ## Entries of the reference array -/

theorem oddPrimeFlags_get (N : Int) (n : Nat) (h : (n : Int) ≤ N) :
    (oddPrimeFlags N)[n]? = some (if Nat.Prime (2 * n + 1) then 1 else 0) := by
  have h' : n < (N + 1).toNat := by omega
  simp [oddPrimeFlags, List.getElem?_map, List.getElem?_range, h']

theorem oddPrimeFlags_entry (N : Int) (n : Nat) (h : (n : Int) ≤ N) :
    ((oddPrimeFlags N)[n]? = some 1 ↔ Nat.Prime (2 * n + 1)) ∧
      ((oddPrimeFlags N)[n]? = some 0 ↔ ¬ Nat.Prime (2 * n + 1)) := by
  rw [oddPrimeFlags_get N n h]
  by_cases hp : Nat.Prime (2 * n + 1)
  · simp [hp]
  · simp [hp]

theorem oddPrimeFlags_length_int (N : Int) (hN : 0 ≤ N) :
    ((oddPrimeFlags N).length : Int) = N + 1 := by
  rw [oddPrimeFlags_length]
  omega

/-! ## The formula method on a supplied list and on its own list -/

theorem T_from_formula_some_correct (n : Int) (hn : 0 ≤ n) (l : List Int)
    (hsorted : l.Pairwise (· ≤ ·)) (hprimes : ∀ p ∈ l, Nat.Prime p.toNat)
    (hcover : ∀ q : Nat, Nat.Prime q → (q : Int) * (q : Int) ≤ 2 * n + 1 → (q : Int) ∈ l) :
    T_from_formula n (some l) = .ok (if Nat.Prime (2 * n + 1).toNat then 1 else 0) := by
  obtain ⟨n, rfl⟩ : ∃ m : Nat, n = (m : Int) := ⟨n.toNat, by omega⟩
  have e : (2 * (n : Int) + 1).toNat = 2 * n + 1 := by omega
  rw [e]
  unfold T_from_formula
  dsimp only
  by_cases h0 : n = 0
  · subst h0
    simp [Nat.not_prime_one]
  · rw [if_neg (by omega)]
    by_cases h1 : n = 1
    · subst h1
      have : Nat.Prime 3 := by norm_num
      simp [this]
    · rw [if_neg (by omega)]
      have hloop := T_from_formula_loop_correct n (by omega) l hsorted hprimes
        (fun q hq hsq => hcover q hq (by exact_mod_cast hsq))
      rw [bind_pure_ok, hloop]
      rfl

theorem isqrt_nonneg (x : Int) : 0 ≤ isqrt x := by
  rw [isqrt_eq_sqrt]
  exact Int.natCast_nonneg _

theorem isqrt_lt_of_lt_sq (x : Int) (b : Nat) (h0 : 0 ≤ x)
    (hx : x < (b : Int) * (b : Int)) : isqrt x < (b : Int) := by
  rw [isqrt_eq_sqrt]
  have h : Nat.sqrt x.toNat < b := by
    rw [Nat.sqrt_lt]
    have : ((x.toNat : Nat) : Int) < ((b * b : Nat) : Int) := by
      push_cast
      omega
    exact_mod_cast this
  exact_mod_cast h

theorem le_isqrt_of_sq_le (x : Nat) (q : Nat) (h : q * q ≤ x) : (q : Int) ≤ isqrt (x : Int) := by
  rw [isqrt_eq_sqrt]
  have : ((x : Int)).toNat = x := by simp
  rw [this]
  exact_mod_cast Nat.le_sqrt.mpr h

/-- Without a list, for `n ≥ 2` with `2n+1 < 2147437383^2`, `T_from_formula` runs its loop
over the primes up to `max (floor (sqrt (2n+1)) + 1) 3`. -/
theorem T_from_formula_none_eq (n : Int) (hn : 2 ≤ n)
    (hb : 2 * n + 1 < 2147437383 * 2147437383) :
    T_from_formula n none =
      .ok (T_from_formula_loop n (primeList (max (isqrt (2 * n + 1) + 1) 3))) := by
  have h0 := isqrt_nonneg (2 * n + 1)
  have h1 : isqrt (2 * n + 1) < ((2147437383 : Nat) : Int) :=
    isqrt_lt_of_lt_sq (2 * n + 1) 2147437383 (by omega) (by exact_mod_cast hb)
  have h2 : isqrt (2 * n + 1) < 2147437383 := by exact_mod_cast h1
  unfold T_from_formula
  dsimp only
  rw [if_neg (by omega), if_neg (by omega), int32_ok (by omega) (by omega), bind_ok,
    int_succ_ok (by omega), bind_ok,
    primes_upto_eq (max (isqrt (2 * n + 1) + 1) 3) (by omega), bind_ok]
  rfl

/-- Without a list, for every `n` with `2n+1 < 2147437383^2`, `T_from_formula` decides
whether `n ≥ 1` and `2n+1` is prime. -/
theorem T_from_formula_none_correct (n : Int) (hb : 2 * n + 1 < 2147437383 * 2147437383) :
    T_from_formula n none = .ok (if 1 ≤ n ∧ Nat.Prime (2 * n + 1).toNat then 1 else 0) := by
  by_cases h1 : n < 1
  · unfold T_from_formula
    rw [if_pos h1, if_neg (by omega)]
  · by_cases h2 : n = 1
    · subst h2
      have : Nat.Prime 3 := by norm_num
      have e : (2 * (1 : Int) + 1).toNat = 3 := rfl
      unfold T_from_formula
      simp [e, this]
    · obtain ⟨m, rfl⟩ : ∃ m : Nat, n = (m : Int) := ⟨n.toNat, by omega⟩
      have e : (2 * (m : Int) + 1).toNat = 2 * m + 1 := by omega
      rw [T_from_formula_none_eq _ (by omega) hb, e]
      have hloop := T_from_formula_loop_correct m (by omega)
        (primeList (max (isqrt (2 * (m : Int) + 1) + 1) 3))
        ((List.Pairwise.imp le_of_lt) (primeList_sorted _))
        (fun p hp => ((mem_primeList _ p).mp hp).1)
        (fun q hq hsq => (mem_primeList _ q).mpr ⟨by simpa using hq, by
          have h := le_isqrt_of_sq_le (2 * m + 1) q hsq
          have h' : ((2 * m + 1 : Nat) : Int) = 2 * (m : Int) + 1 := by push_cast; rfl
          rw [h'] at h
          have := le_max_left (isqrt (2 * (m : Int) + 1) + 1) 3
          omega⟩)
      rw [hloop]
      by_cases hp : Nat.Prime (2 * m + 1)
      · rw [if_pos hp, if_pos ⟨by omega, hp⟩]
      · rw [if_neg hp, if_neg (fun h => hp h.2)]

/-- At `n = 2^61` the square root of `o = 2^62 + 1` is `2^31`, outside the range of `int`:
the conversion on line 43 overflows. -/
theorem T_from_formula_none_overflow :
    T_from_formula 2305843009213693952 none = .error .overflow := by
  have hsqrt : Nat.sqrt 4611686018427387905 = 2147483648 :=
    (Nat.eq_sqrt.mpr ⟨by norm_num, by norm_num⟩).symm
  have h : isqrt (2 * 2305843009213693952 + 1) = 2147483648 := by
    rw [isqrt_eq_sqrt]
    have e : (2 * 2305843009213693952 + 1 : Int).toNat = 4611686018427387905 := rfl
    rw [e, hsqrt]
    rfl
  unfold T_from_formula
  dsimp only
  rw [if_neg (by norm_num), if_neg (by norm_num), h, int32_overflow (by norm_num), bind_error]

/-- With `N = 0` every progression starts beyond the array: nothing is marked. -/
theorem progression_marking_T_loop_zero (l : List Int) (T : List Int) :
    progression_marking_T_loop 0 l T = .ok T := by
  induction l with
  | nil => rfl
  | cons p rest ih =>
    unfold progression_marking_T_loop
    dsimp only
    split_ifs with h1 h2
    · exact ih
    · rfl
    · omega

/-! ## Where the `int` arithmetic of `primes_upto` leaves its range -/

/-- A prime is still flagged when the outer loop of `primes_upto` reaches it. -/
theorem SieveInv_prime_flag {n p : Nat} {a : List Int} (hinv : SieveInv n p a)
    (hpn : p ≤ n) (hprime : Nat.Prime p) : a.getD p 0 ≠ 0 := by
  rw [Ne, (hinv.2 p hpn).2]
  rintro (h | ⟨d, hd2, hdp, hdvd, _⟩)
  · have := hprime.two_le
    omega
  · rcases (Nat.dvd_prime hprime).mp hdvd with h | h <;> omega

/-- For `2147437384 ≤ n < 2^31 - 1` the outer loop of `primes_upto` does not get past
`p = 46273`: the multiple `46273 * 46408 = 2147437384` is at most `n`, and adding `46273`
to it overflows, unless an earlier stride has already overflowed. -/
theorem primes_upto_outer_overflow (n r : Nat) (hn0 : 2147437384 ≤ n) (hn1 : n < 2147483647)
    (hr0 : 46273 ≤ r) (hr1 : r ≤ 46340) :
    ∀ (fuel p : Nat) (a : List Int), 2 ≤ p → p ≤ 46273 → r + 1 - p < fuel →
      SieveInv n p a → primes_upto_outer n r fuel p a = .error .overflow := by
  intro fuel
  induction fuel with
  | zero => intro p a _ _ h; omega
  | succ fuel ih =>
    intro p a hp2 hp1 hfuel hinv
    have hlen : a.length = n + 1 := hinv.1
    have hload : load a (p : Int) = .ok (a.getD p 0) := by
      rw [load_ok (by omega) (by omega)]
      simp
    have hsucc : int_succ (p : Int) = .ok (((p + 1 : Nat) : Int)) := by
      rw [int_succ_ok (by omega)]
      push_cast
      rfl
    have hpp : p * p ≤ 46273 * 46273 := Nat.mul_le_mul hp1 hp1
    have hppI : (p : Int) * (p : Int) ≤ 2141190529 := by exact_mod_cast hpp
    have hpp0 : (0 : Int) ≤ (p : Int) * (p : Int) := by positivity
    unfold primes_upto_outer
    rw [if_pos (by exact_mod_cast (show p ≤ r by omega)), hload, bind_ok]
    by_cases hflag : a.getD p 0 = 0
    · have hne : p ≠ 46273 := by
        rintro rfl
        exact SieveInv_prime_flag hinv (by omega) (by norm_num) hflag
      rw [if_neg (not_not.mpr hflag), bind_pure_ok, hsucc, bind_ok]
      exact ih (p + 1) a (by omega) (by omega) (by omega)
        (SieveInv_skipped hinv hp2 (by omega) hflag)
    · rw [if_pos hflag, int32_ok (by omega) (by omega), bind_ok]
      by_cases hlast : p = 46273
      · subst hlast
        rw [primes_upto_inner_overflow (n : Int) _ (by norm_num) _ _ a hpp0 (by omega)
          (by omega) ⟨2147437384, by norm_num, by exact_mod_cast hn0,
            ⟨135, by norm_num⟩, by norm_num⟩, bind_error]
      · rcases primes_upto_inner_overflow_or (n : Int) (p : Int) ((n : Int).toNat + 2)
          ((p : Int) * (p : Int)) a with hov | heq
        · rw [hov, bind_error]
        · obtain ⟨b, hb, hblen, hbget⟩ := progression_marking_T_inner_spec (n : Int) (p : Int)
            (by omega) ((n : Int).toNat + 2) ((p : Int) * (p : Int)) a hpp0 (by omega)
            (by omega)
          rw [heq, hb, bind_ok, hsucc, bind_ok]
          exact ih (p + 1) b (by omega) (by omega) (by omega)
            (SieveInv_marked hinv hblen hbget hp2)

/-- For every `limit` from `2147437384` on, `primes_upto` does not return: at
`limit = 2^31 - 1` the count `n + 1` overflows, below that an increment `q += p` does. -/
theorem primes_upto_overflow (limit : Int) (h0 : 2147437384 ≤ limit) :
    primes_upto limit = .error .overflow := by
  unfold primes_upto
  dsimp only
  rw [if_neg (by omega)]
  by_cases hmax : 2147483647 ≤ limit
  · rw [int_succ_overflow hmax, bind_error]
  · obtain ⟨n, rfl⟩ : ∃ n : Nat, limit = (n : Int) := ⟨limit.toNat, by omega⟩
    have hn0 : 2147437384 ≤ n := by omega
    have hn1 : n < 2147483647 := by omega
    have hr0 : 46273 ≤ Nat.sqrt n := by
      rw [Nat.le_sqrt]
      omega
    have hr1 : Nat.sqrt n ≤ 46340 := by
      have h : Nat.sqrt n < 46341 := by
        rw [Nat.sqrt_lt]
        omega
      omega
    have hrun := primes_upto_outer_overflow n (Nat.sqrt n) hn0 hn1 hr0 hr1 (Nat.sqrt n + 2) 2
      _ (le_refl 2) (by omega) (by omega) (SieveInv_init n (by omega))
    have e1 : ((n : Int) + 1).toNat = n + 1 := by omega
    have e4 : (0 : Int).toNat = 0 := rfl
    have e5 : (1 : Int).toNat = 1 := rfl
    have e6 : (2 : Int) = ((2 : Nat) : Int) := rfl
    rw [int_succ_ok (by omega), bind_ok, mkVector_ok 1 (by omega), bind_ok,
      store_ok 0 (by decide) (by simp; omega), bind_ok,
      store_ok 0 (le_refl 0) (by simp), bind_ok, isqrt_natCast,
      int32_ok (by omega) (by omega), bind_ok, Int.toNat_ofNat, e1, e4, e5, e6, hrun,
      bind_error]

/-- Without a list, from `2n+1 = 2147437383^2` on, `T_from_formula` does not return:
`lim` is at least `2147437384`, or it is outside the range of `int`. -/
theorem T_from_formula_none_overflow_ge (n : Int)
    (hb : 2147437383 * 2147437383 ≤ 2 * n + 1) :
    T_from_formula n none = .error .overflow := by
  have h0 : (2147437383 : Int) ≤ isqrt (2 * n + 1) := by
    have h := le_isqrt_of_sq_le (2 * n + 1).toNat 2147437383 (by omega)
    have e : (((2 * n + 1).toNat : Nat) : Int) = 2 * n + 1 := by omega
    rw [e] at h
    exact_mod_cast h
  unfold T_from_formula
  dsimp only
  rw [if_neg (by omega), if_neg (by omega)]
  by_cases h1 : isqrt (2 * n + 1) ≤ 2147483647
  · rw [int32_ok (by omega) h1, bind_ok]
    by_cases h2 : isqrt (2 * n + 1) < 2147483647
    · rw [int_succ_ok h2, bind_ok, primes_upto_overflow _ (by omega), bind_error]
    · rw [int_succ_overflow (by omega), bind_error]
  · rw [int32_overflow (by omega), bind_error]

/-- With a negative cutoff, from `N = 1073718692` on, `progression_marking_T` does not
return: the cutoff `2N+1` is at least `2147437384`, or it is outside the range of `int`. -/
theorem progression_marking_T_overflow_default (N : Int) (hN : 1073718692 ≤ N) (p_max : Int)
    (hneg : p_max < 0) : progression_marking_T N p_max = .error .overflow := by
  unfold progression_marking_T
  by_cases h1 : N < 2147483647
  · rw [int_succ_ok h1, bind_ok, mkVector_ok 1 (by omega), bind_ok,
      store_ok 0 (le_refl 0) (by simp; omega), bind_ok, if_pos hneg]
    by_cases h2 : 2 * N + 1 ≤ 2147483647
    · rw [int32_ok (by omega) h2, bind_ok]
      dsimp only
      rw [primes_upto_overflow _ (by omega), bind_error]
    · rw [int32_overflow (by omega), bind_error]
  · rw [int_succ_overflow (by omega), bind_error]

/-- With a cutoff from `2147437384` on, `progression_marking_T` does not return for any
`N ≥ 0`. -/
theorem progression_marking_T_overflow_given (N : Int) (hN : 0 ≤ N) (p_max : Int)
    (hp : 2147437384 ≤ p_max) : progression_marking_T N p_max = .error .overflow := by
  unfold progression_marking_T
  by_cases h1 : N < 2147483647
  · rw [int_succ_ok h1, bind_ok, mkVector_ok 1 (by omega), bind_ok,
      store_ok 0 (le_refl 0) (by simp; omega), bind_ok, if_neg (by omega), bind_pure_ok]
    dsimp only
    rw [primes_upto_overflow _ hp, bind_error]
  · rw [int_succ_overflow (by omega), bind_error]

/-! ## Supplied lists, marked progressions, the progression base, the early stop -/

theorem T_from_formula_some_eq_loop (n : Int) (hn : 2 ≤ n) (l : List Int) :
    T_from_formula n (some l) = .ok (T_from_formula_loop n l) := by
  unfold T_from_formula
  dsimp only
  rw [if_neg (by omega), if_neg (by omega)]
  rfl

/-- For `0 ≤ N < 2^31 - 1` and `0 ≤ p_max ≤ 2147437383` progression marking returns an
array of length `N+1` in which every index on the progression of a prime `3 ≤ p ≤ p_max`
is cleared. -/
theorem progression_marking_T_marks (N p_max : Int) (hN : 0 ≤ N) (hN1 : N < 2147483647)
    (hpm : 0 ≤ p_max) (hpm1 : p_max ≤ 2147437383) :
    ∃ T : List Int, progression_marking_T N p_max = .ok T ∧ (T.length : Int) = N + 1 ∧
      ∀ (p : Int) (n : Nat), Nat.Prime p.toNat → 3 ≤ p → p ≤ p_max → (n : Int) ≤ N →
        (3 * p - 1) / 2 ≤ (n : Int) → p ∣ (n : Int) - (3 * p - 1) / 2 → T[n]? = some 0 := by
  obtain ⟨M, rfl⟩ : ∃ M : Nat, N = (M : Int) := ⟨N.toNat, by omega⟩
  have e1 : ((M : Int) + 1).toNat = M + 1 := by omega
  obtain ⟨T, hrun, hlen, hget⟩ := progression_marking_T_loop_spec M (primeList p_max)
    ((List.replicate (M + 1) (1 : Int)).set 0 0)
    ((List.Pairwise.imp le_of_lt) (primeList_sorted p_max)) (by simp)
  refine ⟨T, ?_, by rw [hlen]; push_cast; rfl, ?_⟩
  · rw [progression_marking_T_given _ hN hN1 p_max hpm hpm1, e1]
    exact hrun
  · intro p n hp h3 hle hn hb hd
    have hnM : n ≤ M := by exact_mod_cast hn
    have h0 := (hget n hnM).1 ⟨p, (mem_primeList p_max p).mpr ⟨hp, hle⟩, h3, hb, hd⟩
    have hlt : n < T.length := by omega
    rw [List.getD_eq_getElem?_getD, List.getElem?_eq_getElem hlt] at h0
    rw [List.getElem?_eq_getElem hlt]
    simpa using h0

theorem base_odd (p : Int) (hodd : p % 2 = 1) : 2 * base p + 1 = 3 * p := by
  unfold base
  omega

theorem progression_index_iff (p n : Int) (hp : 0 < p) :
    (∃ k : Nat, n = base p + k * p) ↔ (base p ≤ n ∧ p ∣ n - base p) := by
  constructor
  · rintro ⟨k, rfl⟩
    have : 0 ≤ (k : Int) * p := by positivity
    exact ⟨by omega, ⟨k, by ring⟩⟩
  · rintro ⟨hle, c, hc⟩
    have hc0 : 0 ≤ c := by
      by_contra hneg
      have : p * c < 0 := mul_neg_of_pos_of_neg hp (by omega)
      omega
    refine ⟨c.toNat, ?_⟩
    have : ((c.toNat : Nat) : Int) = c := Int.toNat_of_nonneg hc0
    rw [this]
    have : n = base p + p * c := by omega
    rw [this]
    ring

theorem proper_multiple_iff (p n : Int) (hp : 0 < p) (hodd : p % 2 = 1) :
    (3 * p ≤ 2 * n + 1 ∧ p ∣ 2 * n + 1) ↔ (p ∣ 2 * n + 1 ∧ p < 2 * n + 1) := by
  constructor
  · rintro ⟨h, hd⟩
    exact ⟨hd, by omega⟩
  · rintro ⟨hd, hlt⟩
    refine ⟨?_, hd⟩
    obtain ⟨c, hc⟩ := hd
    have hc2 : 2 ≤ c := by
      by_contra h
      have h1 : c ≤ 1 := by omega
      have : p * c ≤ p * 1 := mul_le_mul_of_nonneg_left h1 (le_of_lt hp)
      omega
    have hc3 : 3 ≤ c := by
      rcases Int.lt_or_le 2 c with h | h
      · omega
      · have : c = 2 := by omega
        subst this
        omega
    have : p * 3 ≤ p * c := mul_le_mul_of_nonneg_left hc3 (le_of_lt hp)
    omega

theorem T_from_formula_loop_single (p n : Int) (h3 : 3 ≤ p) :
    T_from_formula_loop n [p] = 0 ↔ (base p ≤ n ∧ p ∣ n - base p) := by
  constructor
  · intro h
    obtain ⟨q, hq, _, hb, hd⟩ := T_from_formula_loop_eq_zero h
    rw [List.mem_singleton] at hq
    subst hq
    exact ⟨hb, hd⟩
  · rintro ⟨hb, hd⟩
    exact T_from_formula_loop_hit (List.pairwise_singleton _ _) (List.mem_singleton.mpr rfl)
      h3 hb hd

theorem is_prime_loop_spec (n : Nat) (hn : n < 2 ^ 63) (hn2 : 2 ≤ n) (hodd : n % 2 = 1) :
    ∀ (fuel i : Nat), 3 ≤ i → i % 2 = 1 → i < 2 ^ 32 →
      (∀ d : Nat, 2 ≤ d → d < i → ¬ d ∣ n) → n + 1 - i * i < fuel →
      is_prime_loop n fuel i = .ok (decide (Nat.Prime n)) := by
  intro fuel
  induction fuel with
  | zero => intro i _ _ _ _ h; omega
  | succ fuel ih =>
    intro i hi3 hiodd hi32 hnodiv hfuel
    have hsq : i * i < 2 ^ 64 := by
      have h1 : i * i ≤ (2 ^ 32 - 1) * (2 ^ 32 - 1) := Nat.mul_le_mul (by omega) (by omega)
      have h2 : (2 ^ 32 - 1) * (2 ^ 32 - 1) < 2 ^ 64 := by norm_num
      omega
    unfold is_prime_loop
    rw [Nat.mod_eq_of_lt hsq]
    by_cases hle : i * i ≤ n
    · rw [if_pos hle]
      by_cases hdiv : n % i = 0
      · rw [if_pos hdiv]
        have hnp : ¬ Nat.Prime n := by
          intro hp
          have hdvd : i ∣ n := Nat.dvd_of_mod_eq_zero hdiv
          have hlt : i < i * i := by nlinarith
          rcases (Nat.dvd_prime hp).mp hdvd with h | h <;> omega
        rw [decide_eq_false hnp]
      · rw [if_neg hdiv]
        have hbound : i < 3037000500 := by
          by_contra hge
          have h1 : 3037000500 * 3037000500 ≤ i * i :=
            Nat.mul_le_mul (by omega) (by omega)
          have h2 : (2 : Nat) ^ 63 < 3037000500 * 3037000500 := by norm_num
          omega
        have hnext : (i + 2) % 2 ^ 64 = i + 2 := Nat.mod_eq_of_lt (by omega)
        rw [hnext]
        apply ih (i + 2) (by omega) (by omega) (by omega)
        · intro d hd2 hdlt hdvd
          rcases Nat.lt_or_ge d i with h | h
          · exact hnodiv d hd2 h hdvd
          · rcases Nat.eq_or_lt_of_le h with h | h
            · subst h
              exact hdiv (Nat.mod_eq_zero_of_dvd hdvd)
            · have hd : d = i + 1 := by omega
              subst hd
              have h2 : 2 ∣ n := dvd_trans (by omega : 2 ∣ i + 1) hdvd
              omega
        · have hexp : (i + 2) * (i + 2) = i * i + 4 * i + 4 := by ring
          rw [hexp]
          omega
    · rw [if_neg hle]
      have hp : Nat.Prime n := by
        rw [Nat.prime_def_le_sqrt]
        refine ⟨by omega, fun m hm2 hmsq hdvd => ?_⟩
        have hmm : m * m ≤ n := Nat.le_sqrt.mp hmsq
        have hmi : m < i := by
          by_contra hge
          have : i * i ≤ m * m := Nat.mul_le_mul (by omega) (by omega)
          omega
        exact hnodiv m hm2 hmi hdvd
      rw [decide_eq_true hp]

/-- For `n < 2^63` trial division returns, and returns the primality of `n`. -/
theorem is_prime_eq (n : Nat) (hn : n < 2 ^ 63) : is_prime n = .ok (decide (Nat.Prime n)) := by
  unfold is_prime
  by_cases h2 : n < 2
  · rw [if_pos h2]
    have : ¬ Nat.Prime n := fun hp => by have := hp.two_le; omega
    rw [decide_eq_false this]
  · rw [if_neg h2]
    by_cases heven : n % 2 = 0
    · rw [if_pos heven]
      by_cases h : n = 2
      · subst h
        rfl
      · have : ¬ Nat.Prime n := by
          intro hp
          rcases hp.eq_two_or_odd with h' | h' <;> omega
        rw [decide_eq_false h, decide_eq_false this]
    · rw [if_neg heven]
      apply is_prime_loop_spec n hn (by omega) (by omega) (n + 1) 3 (le_refl 3) (by decide)
        (by norm_num)
      · intro d hd2 hd3 hdvd
        have hd : d = 2 := by omega
        subst hd
        omega
      · omega

/-! ## The naive generator `generate_T` -/

theorem generate_T_loop_spec (limit : Nat) (hlimit : 2 * limit < 2 ^ 63) :
    ∀ (fuel n : Nat) (T : List Int), n ≤ limit → limit - n < fuel →
      generate_T_loop limit fuel n T =
        .ok (T ++ (List.range' n (limit - n)).map
          (fun k => if Nat.Prime (2 * k + 1) then (1 : Int) else 0)) := by
  intro fuel
  induction fuel with
  | zero => intro n T _ h; omega
  | succ fuel ih =>
    intro n T hn hfuel
    unfold generate_T_loop
    by_cases hlt : n < limit
    · have h64 : (2 : Nat) ^ 64 = 2 * 2 ^ 63 := by norm_num
      have hodd : (2 * n + 1) % 2 ^ 64 = 2 * n + 1 := Nat.mod_eq_of_lt (by omega)
      have hprime := is_prime_eq (2 * n + 1) (by omega)
      have e : limit - n = (limit - (n + 1)) + 1 := by omega
      rw [if_pos hlt, e, List.range'_succ]
      simp only [hodd, hprime, bind, Except.bind]
      rw [ih (n + 1) _ (by omega) (by omega)]
      by_cases hp : Nat.Prime (2 * n + 1)
      · simp [hp]
      · simp [hp]
    · have : limit - n = 0 := by omega
      rw [if_neg hlt, this]
      simp

/-- For `N ≥ 0` with `2N+1 < 2^63 - 1` the naive generator returns the reference
array. -/
theorem generate_T_eq (N : Int) (hN : 0 ≤ N) (hbound : 2 * (N + 1) < 2 ^ 63) :
    generate_T (N + 1).toNat = .ok (oddPrimeFlags N) := by
  obtain ⟨M, rfl⟩ : ∃ M : Nat, N = (M : Int) := ⟨N.toNat, by omega⟩
  have e1 : ((M : Int) + 1).toNat = M + 1 := by omega
  have hb : 2 * (M + 1) < 2 ^ 63 := by exact_mod_cast hbound
  unfold generate_T oddPrimeFlags
  rw [e1, generate_T_loop_spec (M + 1) hb (M + 1 + 1) 0 [] (Nat.zero_le _) (by omega),
    List.nil_append, List.range_eq_range']
  rfl

/-! ## Counting the primes -/

theorem length_filter_range_eq_count (p : Nat → Prop) [DecidablePred p] (m : Nat) :
    ((List.range m).filter (fun k => decide (p k))).length = Nat.count p m := by
  induction m with
  | zero => rfl
  | succ m ih =>
    rw [List.range_succ, List.filter_append, List.length_append, ih, Nat.count_succ]
    by_cases h : p m
    · simp [h]
    · simp [h]

theorem primeList_length (limit : Int) :
    (primeList limit).length = Nat.primeCounting limit.toNat := by
  unfold primeList Nat.primeCounting Nat.primeCounting'
  rw [List.length_map, length_filter_range_eq_count]

set_option maxRecDepth 100000 in
/-- Trial division finds 168 primes among `0, ..., 1000`. -/
theorem is_prime_count_1000 : is_prime_count 1000 = 168 := by
  decide!

theorem is_prime_count_eq (m : Nat) (hm : m < 2 ^ 63) :
    is_prime_count m = Nat.primeCounting m := by
  unfold Nat.primeCounting Nat.primeCounting' is_prime_count
  rw [← length_filter_range_eq_count]
  congr 1
  apply List.filter_congr
  intro k hk
  rw [List.mem_range] at hk
  rw [is_prime_eq k (by omega)]
  by_cases hp : Nat.Prime k
  · simp [hp, Except.toOption]
  · simp [hp, Except.toOption]

theorem primeCounting_1000 : Nat.primeCounting 1000 = 168 := by
  rw [← is_prime_count_eq 1000 (by norm_num)]
  exact is_prime_count_1000

/-! ## The products of the packed sieve -/

/-- While every index `j + p` of the marking loops is in the range of `int`, the traced
outer loop returns; its products are the squares of the primes `2j+1` of the slots it
visits. -/
theorem T_via_sieve_outer_traced_spec (N m : Nat) (hm : m ≤ N)
    (hN : N + 2 * m + 1 ≤ 2147483647) :
    ∀ (fuel i : Nat) (a products : List Int), 1 ≤ i → i ≤ m + 1 → m + 1 - i < fuel →
      OddSieveInv N i a →
      ∃ a' products', T_via_sieve_outer_traced ((N : Int) + 1) m fuel i a products =
          .ok (a', products') ∧ OddSieveInv N (m + 1) a' ∧
        ∀ x : Int, x ∈ products' ↔ (x ∈ products ∨ ∃ j : Nat, i ≤ j ∧ j ≤ m ∧
          Nat.Prime (2 * j + 1) ∧ x = (2 * (j : Int) + 1) * (2 * (j : Int) + 1)) := by
  intro fuel
  induction fuel with
  | zero => intro i a products _ _ h; omega
  | succ fuel ih =>
    intro i a products hi1 him hfuel hinv
    unfold T_via_sieve_outer_traced
    by_cases hle : i ≤ m
    · have hlen : a.length = N + 1 := hinv.1
      have hload : load a (i : Int) = .ok (a.getD i 0) := by
        rw [load_ok (by omega) (by omega)]
        simp
      have hflagp := OddSieveInv_flag_iff_prime hinv hi1 (by omega)
      rw [if_pos (by exact_mod_cast hle), hload]
      by_cases hflag : a.getD i 0 = 0
      · have hnp : ¬ Nat.Prime (2 * i + 1) := fun hp => (hflagp.mpr hp) hflag
        have hnext := OddSieveInv_skipped hinv hi1 (by omega) hflag
        obtain ⟨a', products', hrun, hfin, hmem⟩ :=
          ih (i + 1) a products (by omega) (by omega) (by omega) hnext
        refine ⟨a', products', ?_, hfin, ?_⟩
        · rw [bind_ok, if_pos hflag, ← hrun]
          push_cast
          rfl
        · intro x
          rw [hmem x]
          constructor
          · rintro (h | ⟨j, hj, hjm, hp, hx⟩)
            · exact Or.inl h
            · exact Or.inr ⟨j, by omega, hjm, hp, hx⟩
          · rintro (h | ⟨j, hj, hjm, hp, hx⟩)
            · exact Or.inl h
            · rcases Nat.eq_or_lt_of_le hj with heq | hlt
              · subst heq
                exact absurd hp hnp
              · exact Or.inr ⟨j, hlt, hjm, hp, hx⟩
      · have hp : Nat.Prime (2 * i + 1) := hflagp.mp hflag
        have hstart : (0 : Int) ≤ ((2 * (i : Int) + 1) * (2 * (i : Int) + 1) - 1) / 2 := by
          rw [odd_start]
          positivity
        obtain ⟨b, hb, hblen, hbget⟩ :=
          primes_upto_inner_spec (((N : Int) + 1) - 1) (2 * (i : Int) + 1) (by omega)
            (((N : Int) + 1).toNat + 2)
            (((2 * (i : Int) + 1) * (2 * (i : Int) + 1) - 1) / 2) a hstart (by omega)
            (by omega) (by intro k _ hk _; omega)
        rw [← T_via_sieve_inner_eq] at hb
        have hnext := OddSieveInv_marked hinv hblen hbget hi1
        obtain ⟨a', products', hrun, hfin, hmem⟩ :=
          ih (i + 1) b (products ++ [(2 * (i : Int) + 1) * (2 * (i : Int) + 1)])
            (by omega) (by omega) (by omega) hnext
        refine ⟨a', products', ?_, hfin, ?_⟩
        · rw [bind_ok, if_neg hflag]
          dsimp only
          rw [hb, bind_ok, ← hrun]
          push_cast
          rfl
        · intro x
          rw [hmem x, List.mem_append, List.mem_singleton]
          constructor
          · rintro ((h | h) | ⟨j, hj, hjm, hpj, hx⟩)
            · exact Or.inl h
            · exact Or.inr ⟨i, le_refl i, hle, hp, h⟩
            · exact Or.inr ⟨j, by omega, hjm, hpj, hx⟩
          · rintro (h | ⟨j, hj, hjm, hpj, hx⟩)
            · exact Or.inl (Or.inl h)
            · rcases Nat.eq_or_lt_of_le hj with heq | hlt
              · subst heq
                exact Or.inl (Or.inr hx)
              · exact Or.inr ⟨j, hlt, hjm, hpj, hx⟩
    · have : i = m + 1 := by omega
      subst this
      rw [if_neg (by push_cast; omega)]
      refine ⟨a, products, rfl, hinv, ?_⟩
      intro x
      constructor
      · intro h
        exact Or.inl h
      · rintro (h | ⟨j, hj, hjm, _⟩)
        · exact h
        · omega

/-- The products computed by `T_via_sieve N`, `1 ≤ N ≤ 1074068552`, are the squares of
the primes `p = 2j+1` with `1 ≤ j ≤ max_i`, where `max_i = floor (sqrt (2N+1)) / 2`. -/
theorem T_via_sieve_products_spec (N : Nat) (hN : 1 ≤ N) (hN1 : N ≤ 1074068552) :
    ∃ products : List Int, T_via_sieve_products (N : Int) = .ok products ∧
      ∀ x : Int, x ∈ products ↔ ∃ j : Nat, 1 ≤ j ∧ j ≤ Nat.sqrt (2 * N + 1) / 2 ∧
        Nat.Prime (2 * j + 1) ∧ x = (2 * (j : Int) + 1) * (2 * (j : Int) + 1) := by
  have hsize : (2 * (N : Int) + 1 + 1) / 2 = (N : Int) + 1 := by omega
  obtain ⟨m, hm, hmax⟩ : ∃ m : Nat, m = Nat.sqrt (2 * N + 1) / 2 ∧
      isqrt (2 * (N : Int) + 1) / 2 = (m : Int) := by
    refine ⟨_, rfl, ?_⟩
    rw [isqrt_eq_sqrt]
    have : (2 * (N : Int) + 1).toNat = 2 * N + 1 := by omega
    rw [this]
    push_cast
    rfl
  have hmN : m ≤ N := by
    have := Nat.sqrt_le_self (2 * N + 1)
    omega
  have hinit := OddSieveInv_init N
  have hsqrt : Nat.sqrt (2 * N + 1) < 46349 := by
    rw [Nat.sqrt_lt]
    omega
  obtain ⟨a, products, hrun, _, hmem⟩ := T_via_sieve_outer_traced_spec N m hmN (by omega)
    (m + 2) 1 _ []
    (le_refl 1) (by omega) (by omega) hinit
  rw [Nat.cast_one] at hrun
  refine ⟨products, ?_, ?_⟩
  · unfold T_via_sieve_products
    dsimp only
    have e1 : ((N : Int) + 1).toNat = N + 1 := by omega
    have e2 : (m : Int).toNat + 2 = m + 2 := by simp
    have e4 : (0 : Int).toNat = 0 := rfl
    rw [if_neg (by omega), hsize, hmax, mkVector_ok 1 (by omega), bind_ok,
      store_ok 0 (le_refl 0) (by simp), bind_ok, e1, e2, e4, hrun]
    rfl
  · intro x
    rw [hmem x, hm]
    constructor
    · rintro (h | h)
      · exact absurd h (List.not_mem_nil _)
      · exact h
    · intro h
      exact Or.inr h


/-! ## The traced loop and the loop -/

theorem OddSieveInv_unique {N i : Nat} {a b : List Int} (ha : OddSieveInv N i a)
    (hb : OddSieveInv N i b) : a = b := by
  apply list_eq_of_getD (by rw [ha.1, hb.1])
  intro k hk
  have hkN : k ≤ N := by
    have := ha.1
    omega
  obtain ⟨ha01, haz⟩ := ha.2 k hkN
  obtain ⟨hb01, hbz⟩ := hb.2 k hkN
  by_cases h : a.getD k 0 = 0
  · rw [h, hbz.mpr (haz.mp h)]
  · have hb0 : b.getD k 0 ≠ 0 := fun hb0 => h (haz.mpr (hbz.mp hb0))
    rcases ha01 with h1 | h1
    · exact absurd h1 h
    · rcases hb01 with h2 | h2
      · exact absurd h2 hb0
      · rw [h1, h2]

/-- For `1 ≤ N < 1074068552`, where every product is in the range of `int`, erasing the
ghost list from the run of the traced loop gives the run of the loop of `T_via_sieve`. -/
theorem T_via_sieve_outer_traced_fst (N : Nat) (hN : 1 ≤ N) (hN1 : N < 1074068552) :
    (T_via_sieve_outer_traced ((N : Int) + 1) ((Nat.sqrt (2 * N + 1) / 2 : Nat) : Int)
        (Nat.sqrt (2 * N + 1) / 2 + 2) 1 ((List.replicate (N + 1) (1 : Int)).set 0 0) []).map
        Prod.fst =
      T_via_sieve_outer ((N : Int) + 1) ((Nat.sqrt (2 * N + 1) / 2 : Nat) : Int)
        (Nat.sqrt (2 * N + 1) / 2 + 2) 1 ((List.replicate (N + 1) (1 : Int)).set 0 0) := by
  have hsqrt : Nat.sqrt (2 * N + 1) < 46348 := by
    rw [Nat.sqrt_lt]
    omega
  have hmN : Nat.sqrt (2 * N + 1) / 2 ≤ N := by
    have := Nat.sqrt_le_self (2 * N + 1)
    omega
  obtain ⟨a, products, hrun, hfin, _⟩ := T_via_sieve_outer_traced_spec N
    (Nat.sqrt (2 * N + 1) / 2) hmN (by omega) (Nat.sqrt (2 * N + 1) / 2 + 2) 1 _ []
    (le_refl 1) (by omega) (by omega) (OddSieveInv_init N)
  obtain ⟨a', hrun', hfin'⟩ := T_via_sieve_outer_spec N (Nat.sqrt (2 * N + 1) / 2) hmN
    (by omega) (fun j hj hp => odd_prime_square_fits j (by omega) hp) _
    (OddSieveInv_init N)
  rw [Nat.cast_one] at hrun
  rw [hrun, hrun', OddSieveInv_unique hfin' hfin]
  rfl

/-! ## The contract and the behaviour of the functions -/

/-- C1 fails at `N = 1074068552`: `T_via_sieve` computes `p * p = 46349 * 46349` in `int`,
the product overflows, and no array is returned; the same holds for every `N` from there
up to `2^31 - 2`, and at `N = 2^31 - 1` the vector of `size` entries cannot be
constructed.  For `0 ≤ N < 1074068552` the claim holds: `T_via_sieve N` returns an array
of length exactly `N+1` whose entry `n`, for every `0 ≤ n ≤ N`, is `1` if and only if
`2n+1` is prime and is `0` otherwise; in particular entry `0` is `0`. -/
theorem T_via_sieve_correct (N : Int) :
    T_via_sieve 1074068552 = .error .overflow ∧
    (0 ≤ N → N < 1074068552 →
      ∃ T : List Int, T_via_sieve N = .ok T ∧ (T.length : Int) = N + 1 ∧
        (∀ n : Nat, (n : Int) ≤ N →
          (T[n]? = some 1 ↔ Nat.Prime (2 * n + 1)) ∧
          (T[n]? = some 0 ↔ ¬ Nat.Prime (2 * n + 1))) ∧
        T[0]? = some 0) ∧
    (1074068552 ≤ N → N < 2147483647 → T_via_sieve N = .error .overflow) ∧
    T_via_sieve 2147483647 = .error .badAlloc := by
  refine ⟨T_via_sieve_overflow 1074068552 (by norm_num) (by norm_num), ?_,
    fun h0 h1 => T_via_sieve_overflow N h0 h1, T_via_sieve_int_max⟩
  intro hN hlt
  refine ⟨oddPrimeFlags N, T_via_sieve_eq N hN hlt, oddPrimeFlags_length_int N hN,
    fun n hn => oddPrimeFlags_entry N n hn, ?_⟩
  exact (oddPrimeFlags_entry N 0 (by exact_mod_cast hN)).2.mpr Nat.not_prime_one

theorem T_via_sieve_correct_witness :
    ∃ T : List Int, T_via_sieve 10 = .ok T ∧ (T.length : Int) = 10 + 1 ∧
      (∀ n : Nat, (n : Int) ≤ 10 →
        (T[n]? = some 1 ↔ Nat.Prime (2 * n + 1)) ∧
        (T[n]? = some 0 ↔ ¬ Nat.Prime (2 * n + 1))) ∧
      T[0]? = some 0 :=
  (T_via_sieve_correct 10).2.1 (by decide) (by decide)

/-- C2, as stated, fails at `limit = 2147437384`: the stride of `p = 46273` reaches
`q = 46273 * 46408 = 2147437384 ≤ n`, the increment `q += p` overflows `int`, and no
sequence is returned; the same holds for every larger `limit`. -/
theorem primes_upto_as_stated_fails :
    primes_upto 2147437384 = .error .overflow ∧
      (¬ ∃ ps : List Int, primes_upto 2147437384 = .ok ps) ∧
      ∀ limit : Int, 2147437384 ≤ limit → primes_upto limit = .error .overflow := by
  have h := primes_upto_overflow 2147437384 (le_refl _)
  refine ⟨h, ?_, fun limit hl => primes_upto_overflow limit hl⟩
  rintro ⟨ps, hps⟩
  rw [h] at hps
  exact Except.noConfusion hps

/-- C2, amended. For every integer `limit ≤ 2147437383`, `primes_upto limit` returns a
strictly ascending sequence whose elements are exactly the primes `p` with
`2 ≤ p ≤ limit`; the result is empty whenever `limit < 2`, negative limits included. -/
theorem primes_upto_correct (limit : Int) (hlim : limit ≤ 2147437383) :
    ∃ ps : List Int, primes_upto limit = .ok ps ∧ ps.Sorted (· < ·) ∧
      (∀ p : Int, p ∈ ps ↔ (Nat.Prime p.toNat ∧ 2 ≤ p ∧ p ≤ limit)) ∧
      (limit < 2 → ps = []) := by
  refine ⟨primeList limit, primes_upto_eq limit hlim, primeList_sorted limit, ?_, ?_⟩
  · intro p
    rw [mem_primeList]
    constructor
    · rintro ⟨hp, hle⟩
      have := hp.two_le
      exact ⟨hp, by omega, hle⟩
    · rintro ⟨hp, _, hle⟩
      exact ⟨hp, hle⟩
  · intro hlt
    apply List.eq_nil_iff_forall_not_mem.mpr
    intro p hp
    obtain ⟨hprime, hle⟩ := (mem_primeList limit p).mp hp
    have := hprime.two_le
    omega

theorem primes_upto_correct_witness :
    (30 : Int) ≤ 2147437383 ∧
    ∃ ps : List Int, primes_upto 30 = .ok ps ∧ ps.Sorted (· < ·) ∧
      (∀ p : Int, p ∈ ps ↔ (Nat.Prime p.toNat ∧ 2 ≤ p ∧ p ≤ 30)) ∧
      ((30 : Int) < 2 → ps = []) :=
  ⟨by decide, primes_upto_correct 30 (by decide)⟩

/-- C3, as stated, fails at `N = 0`, `p_max = 2147483647`, a cutoff with
`p_max * p_max ≥ 2N+1`: `primes_upto p_max` overflows and no array is returned; so it
does at `p_max = 2147437384`.  It fails with the default cutoff at `N = 1073718692`, where
`2N+1 = 2147437385`, and at `N = 2147483647`, where the count `N + 1` overflows. -/
theorem progression_marking_T_as_stated_fails :
    ((0 : Int) ≤ 0 ∧ (0 : Int) ≤ 2147483647 ∧
      (2 * 0 + 1 : Int) ≤ 2147483647 * 2147483647 ∧
      progression_marking_T 0 2147483647 = .error .overflow) ∧
    progression_marking_T 0 2147437384 = .error .overflow ∧
    progression_marking_T 1073718692 = .error .overflow ∧
    progression_marking_T 2147483647 65536 = .error .overflow := by
  refine ⟨⟨le_refl _, by norm_num, by norm_num, ?_⟩, ?_, ?_, ?_⟩
  · exact progression_marking_T_overflow_given 0 (le_refl _) 2147483647 (by norm_num)
  · exact progression_marking_T_overflow_given 0 (le_refl _) 2147437384 (le_refl _)
  · exact progression_marking_T_overflow_default 1073718692 (le_refl _) (-1) (by norm_num)
  · unfold progression_marking_T
    rw [int_succ_overflow (le_refl _), bind_error]

/-- C3, amended. For every `N` with `0 ≤ N < 2^31 - 1` and every cutoff `p_max` with
`0 ≤ p_max ≤ 2147437383` and `p_max * p_max ≥ 2N+1`, `progression_marking_T N p_max`
returns an array of length `N+1` whose entry `n` is `1` if and only if `2n+1` is prime,
for `0 ≤ n ≤ N`; for `N ≤ 1073718691` the default cutoff and the cutoff `2N+1` return
the same array. -/
theorem progression_marking_T_correct (N p_max : Int) (hN : 0 ≤ N) (hN1 : N < 2147483647)
    (hp : 0 ≤ p_max) (hp1 : p_max ≤ 2147437383) (hsq : 2 * N + 1 ≤ p_max * p_max) :
    ∃ T : List Int, progression_marking_T N p_max = .ok T ∧ (T.length : Int) = N + 1 ∧
      (∀ n : Nat, (n : Int) ≤ N →
        (T[n]? = some 1 ↔ Nat.Prime (2 * n + 1)) ∧
        (T[n]? = some 0 ↔ ¬ Nat.Prime (2 * n + 1))) ∧
      (N ≤ 1073718691 →
        progression_marking_T N = .ok T ∧ progression_marking_T N (2 * N + 1) = .ok T) := by
  refine ⟨oddPrimeFlags N, progression_marking_T_eq N hN hN1 p_max hp hp1 hsq,
    oddPrimeFlags_length_int N hN, fun n hn => oddPrimeFlags_entry N n hn, ?_⟩
  intro hN2
  exact ⟨progression_marking_T_eq_default N hN hN2 (-1) (by decide),
    progression_marking_T_eq N hN hN1 (2 * N + 1) (by omega) (by omega) (by nlinarith)⟩

theorem progression_marking_T_correct_witness :
    (0 : Int) ≤ 20 ∧ (20 : Int) < 2147483647 ∧ (0 : Int) ≤ 7 ∧ (7 : Int) ≤ 2147437383 ∧
    (2 * 20 + 1 : Int) ≤ 7 * 7 ∧
    ∃ T : List Int, progression_marking_T 20 7 = .ok T ∧ (T.length : Int) = 20 + 1 ∧
      (∀ n : Nat, (n : Int) ≤ 20 →
        (T[n]? = some 1 ↔ Nat.Prime (2 * n + 1)) ∧
        (T[n]? = some 0 ↔ ¬ Nat.Prime (2 * n + 1))) ∧
      ((20 : Int) ≤ 1073718691 →
        progression_marking_T 20 = .ok T ∧ progression_marking_T 20 (2 * 20 + 1) = .ok T) :=
  ⟨by decide, by decide, by decide, by decide, by decide,
    progression_marking_T_correct 20 7 (by decide) (by decide) (by decide) (by decide)
      (by decide)⟩

/-- C4. For every index `n ≥ 0` and every supplied prime list that is ascending, holds
only primes, and holds every prime `p` with `p * p ≤ 2n+1`, `T_from_formula n list`
returns `1` if `2n+1` is prime and `0` otherwise; so it returns `0` for `n = 0` and `1`
for `n = 1`. -/
theorem T_from_formula_supplied (n : Int) (l : List Int) (hn : 0 ≤ n)
    (hasc : l.Sorted (· ≤ ·)) (hprimes : ∀ p ∈ l, Nat.Prime p.toNat)
    (hcover : ∀ q : Nat, Nat.Prime q → (q : Int) * (q : Int) ≤ 2 * n + 1 → (q : Int) ∈ l) :
    T_from_formula n (some l) = .ok (if Nat.Prime (2 * n + 1).toNat then 1 else 0) ∧
      (n = 0 → T_from_formula n (some l) = .ok 0) ∧
      (n = 1 → T_from_formula n (some l) = .ok 1) := by
  have h := T_from_formula_some_correct n hn l hasc hprimes hcover
  refine ⟨h, ?_, ?_⟩
  · rintro rfl
    rfl
  · rintro rfl
    rfl

theorem T_from_formula_supplied_witness :
    (0 : Int) ≤ 4 ∧ [2, 3].Sorted (fun a b : Int => a ≤ b) ∧
    (∀ p ∈ [(2 : Int), 3], Nat.Prime p.toNat) ∧
    (∀ q : Nat, Nat.Prime q → (q : Int) * (q : Int) ≤ 2 * 4 + 1 → (q : Int) ∈ [(2 : Int), 3]) ∧
    (T_from_formula 4 (some [2, 3]) = .ok (if Nat.Prime (2 * 4 + 1 : Int).toNat then 1 else 0) ∧
      ((4 : Int) = 0 → T_from_formula 4 (some [2, 3]) = .ok 0) ∧
      ((4 : Int) = 1 → T_from_formula 4 (some [2, 3]) = .ok 1)) := by
  have hasc : [2, 3].Sorted (fun a b : Int => a ≤ b) := by
    simp [List.Sorted]
  have hprimes : ∀ p ∈ [(2 : Int), 3], Nat.Prime p.toNat := by
    intro p hp
    simp only [List.mem_cons, List.mem_singleton, List.not_mem_nil, or_false] at hp
    rcases hp with rfl | rfl
    · exact Nat.prime_two
    · exact Nat.prime_three
  have hcover : ∀ q : Nat, Nat.Prime q → (q : Int) * (q : Int) ≤ 2 * 4 + 1 →
      (q : Int) ∈ [(2 : Int), 3] := by
    intro q hq hsq
    have h2 := hq.two_le
    have h3 : q ≤ 3 := by
      by_contra hlt
      have : (4 : Int) ≤ (q : Int) := by omega
      nlinarith
    have : q = 2 ∨ q = 3 := by omega
    rcases this with rfl | rfl <;> simp
  exact ⟨by decide, hasc, hprimes, hcover,
    T_from_formula_supplied 4 [2, 3] (by decide) hasc hprimes hcover⟩

/-- C5, as stated, fails at `n = 2^61`: `floor (sqrt (2^62 + 1)) = 2^31` is outside the
range of `int`, the conversion on line 43 overflows, and no value is returned.  It fails
from `n = 2305743656952944344` on, where `2n+1 = 2147437383^2` and the sieve is asked for
the primes up to `2147437384`. -/
theorem T_from_formula_self_sufficient_as_stated_fails :
    T_from_formula 2305843009213693952 none = .error .overflow ∧
      (¬ ∃ v : Int, T_from_formula 2305843009213693952 none = .ok v) ∧
      T_from_formula 2305743656952944344 none = .error .overflow := by
  have h := T_from_formula_none_overflow
  refine ⟨h, ?_, T_from_formula_none_overflow_ge _ (by norm_num)⟩
  rintro ⟨v, hv⟩
  rw [h] at hv
  exact Except.noConfusion hv

/-- C5, amended. For every integer `n` with `2n+1 < 2147437383^2`, `T_from_formula n`
called without a prime list returns `1` if `n ≥ 1` and `2n+1` is prime, and `0`
otherwise; past the two early returns (`n ≥ 2`) it runs the loop on the primes up to
`max (floor (sqrt (2n+1)) + 1) 3` that it generates itself; for `n < 1` it returns `0`
whatever prime list is or is not passed. -/
theorem T_from_formula_self_sufficient (n : Int)
    (hb : 2 * n + 1 < 2147437383 * 2147437383) :
    T_from_formula n none = .ok (if 1 ≤ n ∧ Nat.Prime (2 * n + 1).toNat then 1 else 0) ∧
      (2 ≤ n → ∃ ps, primes_upto (max (isqrt (2 * n + 1) + 1) 3) = .ok ps ∧
        T_from_formula n none = .ok (T_from_formula_loop n ps)) ∧
      (n < 1 → ∀ primes_opt : Option (List Int), T_from_formula n primes_opt = .ok 0) := by
  refine ⟨T_from_formula_none_correct n hb, ?_, ?_⟩
  · intro h2
    have h0 := isqrt_nonneg (2 * n + 1)
    have h1 : isqrt (2 * n + 1) < ((2147437383 : Nat) : Int) :=
      isqrt_lt_of_lt_sq (2 * n + 1) 2147437383 (by omega) (by exact_mod_cast hb)
    have h3 : isqrt (2 * n + 1) < 2147437383 := by exact_mod_cast h1
    exact ⟨_, primes_upto_eq _ (by omega), T_from_formula_none_eq n h2 hb⟩
  · intro h1 primes_opt
    unfold T_from_formula
    rw [if_pos h1]

theorem T_from_formula_self_sufficient_witness :
    (2 * 12 + 1 : Int) < 2147437383 * 2147437383 ∧
    (T_from_formula 12 none =
        .ok (if 1 ≤ (12 : Int) ∧ Nat.Prime (2 * 12 + 1 : Int).toNat then 1 else 0) ∧
      ((2 : Int) ≤ 12 → ∃ ps, primes_upto (max (isqrt (2 * 12 + 1) + 1) 3) = .ok ps ∧
        T_from_formula 12 none = .ok (T_from_formula_loop 12 ps)) ∧
      ((12 : Int) < 1 → ∀ primes_opt : Option (List Int),
        T_from_formula 12 primes_opt = .ok 0)) :=
  ⟨by decide, T_from_formula_self_sufficient 12 (by decide)⟩

/-- C6, as stated, fails at `N = 1073718692`: `T_via_sieve` returns the array, while
`progression_marking_T` with the default cutoff and `primes_upto (2N+1)` overflow and
return nothing; at `N = 2^30` the default cutoff `2N+1` itself is outside the range of
`int`. -/
theorem cross_method_agreement_as_stated_fails :
    T_via_sieve 1073718692 = .ok (oddPrimeFlags 1073718692) ∧
      progression_marking_T 1073718692 = .error .overflow ∧
      primes_upto (2 * 1073718692 + 1) = .error .overflow ∧
      progression_marking_T 1073741824 = .error .overflow := by
  refine ⟨T_via_sieve_eq _ (by norm_num) (by norm_num),
    progression_marking_T_overflow_default _ (le_refl _) (-1) (by norm_num),
    primes_upto_overflow _ (by norm_num),
    progression_marking_T_overflow_default _ (by norm_num) (-1) (by norm_num)⟩

/-- C6, amended. Cross-method agreement: for every `N` with `0 ≤ N ≤ 1073718691` the
results of `T_via_sieve N`, of `progression_marking_T N` with the default `p_max`, and
the sequence of `T_from_formula n S` for `n = 0..N` over the one shared list
`S = primes_upto (2N+1)`, are equal entry by entry and all have length `N+1`. -/
theorem cross_method_agreement (N : Int) (hN : 0 ≤ N) (hN1 : N ≤ 1073718691) :
    ∃ T S : List Int, T_via_sieve N = .ok T ∧ progression_marking_T N = .ok T ∧
      primes_upto (2 * N + 1) = .ok S ∧ (T.length : Int) = N + 1 ∧
      ∀ n : Nat, (n : Int) ≤ N →
        ∃ v : Int, T_from_formula n (some S) = .ok v ∧ T[n]? = some v := by
  refine ⟨oddPrimeFlags N, primeList (2 * N + 1), T_via_sieve_eq N hN (by omega),
    progression_marking_T_eq_default N hN hN1 (-1) (by decide),
    primes_upto_eq _ (by omega), oddPrimeFlags_length_int N hN, ?_⟩
  intro n hn
  refine ⟨_, T_from_formula_some_correct n (by omega) (primeList (2 * N + 1))
    ((List.Pairwise.imp le_of_lt) (primeList_sorted _))
    (fun p hp => ((mem_primeList _ p).mp hp).1) ?_, ?_⟩
  · intro q hq hsq
    refine (mem_primeList _ q).mpr ⟨by simpa using hq, ?_⟩
    have h0 : (0 : Int) ≤ (q : Int) := by omega
    nlinarith
  · rw [oddPrimeFlags_get N n hn]
    have e : (2 * (n : Int) + 1).toNat = 2 * n + 1 := by omega
    rw [e]

theorem cross_method_agreement_witness :
    (0 : Int) ≤ 20 ∧ (20 : Int) ≤ 1073718691 ∧ ∃ T S : List Int, T_via_sieve 20 = .ok T ∧
      progression_marking_T 20 = .ok T ∧
      primes_upto (2 * 20 + 1) = .ok S ∧ (T.length : Int) = 20 + 1 ∧
      ∀ n : Nat, (n : Int) ≤ 20 →
        ∃ v : Int, T_from_formula n (some S) = .ok v ∧ T[n]? = some v :=
  ⟨by decide, by decide, cross_method_agreement 20 (by decide) (by decide)⟩

/-- C7. On negative `N` the generators fail instead of returning an empty or zero-filled
sequence.  `progression_marking_T` returns nothing for any negative `N`: at `N = -1` it
writes `T[0]` of an empty vector, at `N ≤ -2` it constructs a vector with the negative
count `N+1`.  `T_via_sieve` constructs a vector with the negative count `N+1` at every
`N ≤ -2`, and returns the empty sequence only at `N = -1`. -/
theorem negative_N_faults (k : Nat) (p_max : Int) :
    progression_marking_T (-1) p_max = .error .outOfBounds ∧
      progression_marking_T (-((k : Int) + 2)) p_max = .error .badAlloc ∧
      T_via_sieve (-((k : Int) + 2)) = .error .badAlloc ∧
      T_via_sieve (-1) = .ok [] := by
  refine ⟨rfl, ?_, ?_, rfl⟩
  · unfold progression_marking_T
    rw [int_succ_ok (by omega), bind_ok]
    unfold mkVector
    rw [if_pos (by omega), bind_error]
  · unfold T_via_sieve
    dsimp only
    rw [if_pos (by omega), int_succ_ok (by omega), bind_ok]
    unfold mkVector
    rw [if_pos (by omega)]

/-- C8, as stated, fails: the stated values `T[3] = 0` and `T[4] = 1` are not those of
`T_via_sieve 4`, which is `[0, 1, 1, 1, 0]`; and at `N = 1074068552` no array is
returned. -/
theorem known_values_as_stated_fail :
    (T_via_sieve 4 = .ok [0, 1, 1, 1, 0] ∧
      ¬ ∃ T : List Int, T_via_sieve 4 = .ok T ∧ T[0]? = some 0 ∧ T[1]? = some 1 ∧
        T[2]? = some 1 ∧ T[3]? = some 0 ∧ T[4]? = some 1) ∧
    T_via_sieve 1074068552 = .error .overflow := by
  have h : T_via_sieve 4 = .ok [0, 1, 1, 1, 0] := rfl
  refine ⟨⟨h, ?_⟩, T_via_sieve_overflow 1074068552 (by norm_num) (by norm_num)⟩
  rintro ⟨T, hT, _, _, _, h3, _⟩
  rw [h] at hT
  injection hT with hT
  subst hT
  exact absurd h3 (by decide)

/-- C8, amended. Known values: for every `N` with `4 ≤ N < 1074068552` the array
returned by `T_via_sieve N` has `T[0] = 0`, `T[1] = 1`, `T[2] = 1`, `T[3] = 1` (7 is
prime) and `T[4] = 0` (9 is composite). -/
theorem known_values (N : Int) (hN : 4 ≤ N) (hN1 : N < 1074068552) :
    ∃ T : List Int, T_via_sieve N = .ok T ∧ T[0]? = some 0 ∧ T[1]? = some 1 ∧
      T[2]? = some 1 ∧ T[3]? = some 1 ∧ T[4]? = some 0 := by
  refine ⟨oddPrimeFlags N, T_via_sieve_eq N (by omega) hN1, ?_, ?_, ?_, ?_, ?_⟩
  · exact (oddPrimeFlags_entry N 0 (by omega)).2.mpr (by norm_num)
  · exact (oddPrimeFlags_entry N 1 (by omega)).1.mpr (by norm_num)
  · exact (oddPrimeFlags_entry N 2 (by omega)).1.mpr (by norm_num)
  · exact (oddPrimeFlags_entry N 3 (by omega)).1.mpr (by norm_num)
  · exact (oddPrimeFlags_entry N 4 (by omega)).2.mpr (by norm_num)

theorem known_values_witness :
    (4 : Int) ≤ 50 ∧ (50 : Int) < 1074068552 ∧
    ∃ T : List Int, T_via_sieve 50 = .ok T ∧ T[0]? = some 0 ∧
      T[1]? = some 1 ∧ T[2]? = some 1 ∧ T[3]? = some 1 ∧ T[4]? = some 0 :=
  ⟨by decide, by decide, known_values 50 (by decide) (by decide)⟩

/-- C10, as stated, fails at `p_max = 2147437384`: `primes_upto p_max` overflows and
`progression_marking_T 0 p_max` does not return `[0]`. -/
theorem boundary_zero_as_stated_fails :
    progression_marking_T 0 2147437384 = .error .overflow ∧
      progression_marking_T 0 2147437384 ≠ .ok [0] := by
  have h := progression_marking_T_overflow_given 0 (le_refl _) 2147437384 (le_refl _)
  refine ⟨h, ?_⟩
  rw [h]
  intro h1
  exact Except.noConfusion h1

/-- C10, amended. Boundary `N = 0`: `T_via_sieve 0` and `progression_marking_T 0 p_max`,
for every `p_max ≤ 2147437383` (negative values included), each return the
single-element sequence `[0]`. -/
theorem boundary_zero (p_max : Int) (hp : p_max ≤ 2147437383) :
    T_via_sieve 0 = .ok [0] ∧ progression_marking_T 0 p_max = .ok [0] := by
  refine ⟨rfl, ?_⟩
  by_cases hneg : p_max < 0
  · rw [progression_marking_T_default 0 (le_refl _) (by norm_num) p_max hneg]
    exact progression_marking_T_loop_zero _ _
  · rw [progression_marking_T_given 0 (le_refl _) (by norm_num) p_max (by omega) hp]
    exact progression_marking_T_loop_zero _ _

theorem boundary_zero_witness :
    (100 : Int) ≤ 2147437383 ∧
    (T_via_sieve 0 = .ok [0] ∧ progression_marking_T 0 100 = .ok [0]) :=
  ⟨by decide, boundary_zero 100 (by decide)⟩

/-- C11. A truncated prime list can only produce false positives: for every `n ≥ 1` and
every supplied list of primes, of any length and in any order, if `T_from_formula n list`
returns `0` then `2n+1` is not prime; equivalently, whenever `2n+1` is prime the result
is `1`. -/
theorem truncated_list_only_false_positives (n : Int) (l : List Int) (hn : 1 ≤ n)
    (hprimes : ∀ p ∈ l, Nat.Prime p.toNat) :
    (T_from_formula n (some l) = .ok 0 → ¬ Nat.Prime (2 * n + 1).toNat) ∧
      (Nat.Prime (2 * n + 1).toNat → T_from_formula n (some l) = .ok 1) := by
  have key : T_from_formula n (some l) = .ok 0 → ¬ Nat.Prime (2 * n + 1).toNat := by
    intro h0
    by_cases h1 : n = 1
    · subst h1
      have h1 : T_from_formula 1 (some l) = .ok 1 := rfl
      rw [h1] at h0
      injection h0 with h0
      exact absurd h0 (by decide)
    · rw [T_from_formula_some_eq_loop n (by omega) l] at h0
      injection h0 with h0
      obtain ⟨p, hp, h3, hb, hd⟩ := T_from_formula_loop_eq_zero h0
      obtain ⟨m, rfl⟩ : ∃ m : Nat, n = (m : Int) := ⟨n.toNat, by omega⟩
      have e : (2 * (m : Int) + 1).toNat = 2 * m + 1 := by omega
      rw [e]
      exact not_prime_of_progression (hprimes p hp) h3 hb hd
  refine ⟨key, fun hprime => ?_⟩
  by_cases h1 : n = 1
  · subst h1
    rfl
  · rw [T_from_formula_some_eq_loop n (by omega) l] at key ⊢
    rcases T_from_formula_loop_zero_or_one n l with h0 | h1'
    · exact absurd hprime (key (by rw [h0]))
    · rw [h1']

theorem truncated_list_only_false_positives_witness :
    (1 : Int) ≤ 3 ∧ (∀ p ∈ [(5 : Int), 3], Nat.Prime p.toNat) ∧
    ((T_from_formula 3 (some [5, 3]) = .ok 0 → ¬ Nat.Prime (2 * 3 + 1 : Int).toNat) ∧
      (Nat.Prime (2 * 3 + 1 : Int).toNat → T_from_formula 3 (some [5, 3]) = .ok 1)) := by
  have hprimes : ∀ p ∈ [(5 : Int), 3], Nat.Prime p.toNat := by
    intro p hp
    simp only [List.mem_cons, List.mem_singleton, List.not_mem_nil, or_false] at hp
    rcases hp with rfl | rfl
    · exact Nat.prime_five
    · exact Nat.prime_three
  exact ⟨by decide, hprimes, truncated_list_only_false_positives 3 [5, 3] (by decide) hprimes⟩

/-- C12, as stated, fails at `N = 20`, `p_max = 2147483647`, `p = 5`, `k = 2`: the
hypotheses of the claim hold, `primes_upto p_max` overflows, and there is no array whose
entry `17` could be `0`; so it is at `p_max = 2147437384`, and at `N = 2147483647` the
count `N + 1` overflows. -/
theorem progression_correctness_as_stated_fails :
    ((0 : Int) ≤ 20 ∧ (0 : Int) ≤ 2147483647 ∧ Nat.Prime (5 : Int).toNat ∧ (3 : Int) ≤ 5 ∧
      (5 : Int) ≤ 2147483647 ∧ base 5 + (2 : Nat) * 5 ≤ 20 ∧
      progression_marking_T 20 2147483647 = .error .overflow ∧
      ¬ ∃ T : List Int, progression_marking_T 20 2147483647 = .ok T ∧
        T[(base 5 + (2 : Nat) * 5).toNat]? = some 0) ∧
    progression_marking_T 20 2147437384 = .error .overflow ∧
    progression_marking_T 2147483647 10 = .error .overflow := by
  have h := progression_marking_T_overflow_given 20 (by norm_num) 2147483647 (by norm_num)
  refine ⟨⟨by decide, by decide, Nat.prime_five, by decide, by decide, by decide, h, ?_⟩,
    progression_marking_T_overflow_given 20 (by norm_num) 2147437384 (le_refl _), ?_⟩
  · rintro ⟨T, hT, _⟩
    rw [h] at hT
    exact Except.noConfusion hT
  · unfold progression_marking_T
    rw [int_succ_overflow (le_refl _), bind_error]

/-- C12, amended. Progression correctness: for every `N` with `0 ≤ N < 2^31 - 1`, every
`p_max` with `0 ≤ p_max ≤ 2147437383` and every prime `p` with `3 ≤ p ≤ p_max`, every
index `n = base + k * p` (`k ≥ 0`, `base = (3p-1)/2`) with `n ≤ N` has `2n+1` divisible
by `p` and entry `n` of `progression_marking_T N p_max` equal to `0`. -/
theorem progression_correctness (N p_max p : Int) (k : Nat) (hN : 0 ≤ N)
    (hN1 : N < 2147483647) (hpm : 0 ≤ p_max) (hpm1 : p_max ≤ 2147437383)
    (hp : Nat.Prime p.toNat) (h3 : 3 ≤ p) (hle : p ≤ p_max) (hn : base p + k * p ≤ N) :
    p ∣ 2 * (base p + k * p) + 1 ∧
      ∃ T : List Int, progression_marking_T N p_max = .ok T ∧
        T[(base p + k * p).toNat]? = some 0 := by
  have hb0 : 0 ≤ base p := by unfold base; omega
  have hkp : 0 ≤ (k : Int) * p := by positivity
  obtain ⟨n, hn'⟩ : ∃ n : Nat, base p + k * p = (n : Int) :=
    ⟨(base p + k * p).toNat, by omega⟩
  have hbn : (3 * p - 1) / 2 ≤ (n : Int) := by
    rw [← hn']; unfold base; omega
  have hdn : p ∣ (n : Int) - (3 * p - 1) / 2 := by
    rw [← hn']
    unfold base
    exact ⟨k, by ring⟩
  have hdiv := ((progression_iff p n (odd_of_prime_ge_three hp h3)).mp ⟨hbn, hdn⟩).2
  obtain ⟨T, hrun, _, hmark⟩ := progression_marking_T_marks N p_max hN hN1 hpm hpm1
  rw [hn']
  refine ⟨hdiv, T, hrun, ?_⟩
  rw [Int.toNat_ofNat]
  exact hmark p n hp h3 hle (by rw [← hn']; exact hn) hbn hdn

theorem progression_correctness_witness :
    (0 : Int) ≤ 20 ∧ (20 : Int) < 2147483647 ∧ (0 : Int) ≤ 10 ∧ (10 : Int) ≤ 2147437383 ∧
    Nat.Prime (5 : Int).toNat ∧ (3 : Int) ≤ 5 ∧
    (5 : Int) ≤ 10 ∧ base 5 + (2 : Nat) * 5 ≤ 20 ∧
    ((5 : Int) ∣ 2 * (base 5 + (2 : Nat) * 5) + 1 ∧
      ∃ T : List Int, progression_marking_T 20 10 = .ok T ∧
        T[(base 5 + (2 : Nat) * 5).toNat]? = some 0) :=
  ⟨by decide, by decide, by decide, by decide, Nat.prime_five, by decide, by decide,
    by decide,
    progression_correctness 20 10 5 2 (by decide) (by decide) (by decide) (by decide)
      Nat.prime_five (by decide) (by decide) (by decide)⟩

/-- C13, as stated, fails at `limit = 2147483647`: the count `n + 1` overflows `int` and
`primes_upto` returns no sequence to count; at `limit = 2147437384` the increment
`q += p` overflows. -/
theorem primes_upto_density_as_stated_fails :
    ((0 : Int) ≤ 2147483647 ∧ primes_upto 2147483647 = .error .overflow ∧
      ¬ ∃ ps : List Int, primes_upto 2147483647 = .ok ps ∧
        ps.length = Nat.primeCounting (2147483647 : Int).toNat) ∧
    primes_upto 2147437384 = .error .overflow := by
  have h : primes_upto 2147483647 = .error .overflow := rfl
  refine ⟨⟨by decide, h, ?_⟩, primes_upto_overflow 2147437384 (le_refl _)⟩
  rintro ⟨ps, hps, _⟩
  rw [h] at hps
  exact Except.noConfusion hps

/-- C13, amended. Density: for every `limit` with `0 ≤ limit ≤ 2147437383` the number of
elements returned by `primes_upto limit` equals the prime-counting function `π(limit)`;
in particular `primes_upto 1000` has exactly 168 elements. -/
theorem primes_upto_density (limit : Int) (_hlimit : 0 ≤ limit) (hlim : limit ≤ 2147437383) :
    (∃ ps : List Int, primes_upto limit = .ok ps ∧
      ps.length = Nat.primeCounting limit.toNat) ∧
    (∃ ps : List Int, primes_upto 1000 = .ok ps ∧ ps.length = 168) := by
  refine ⟨⟨primeList limit, primes_upto_eq limit hlim, primeList_length limit⟩,
    ⟨primeList 1000, primes_upto_eq 1000 (by norm_num), ?_⟩⟩
  rw [primeList_length]
  exact primeCounting_1000

theorem primes_upto_density_witness :
    (0 : Int) ≤ 100 ∧ (100 : Int) ≤ 2147437383 ∧
    ((∃ ps : List Int, primes_upto 100 = .ok ps ∧
      ps.length = Nat.primeCounting (100 : Int).toNat) ∧
    (∃ ps : List Int, primes_upto 1000 = .ok ps ∧ ps.length = 168)) :=
  ⟨by decide, by decide, primes_upto_density 100 (by decide) (by decide)⟩

/-- C14. Progression base: for every prime `p ≥ 3`, with `base = (3p-1)/2` as the code
computes it, `2 * base + 1 = 3p`; for every index `n ≥ 0`, `n = base + k * p` for some
`k ≥ 0` if and only if `p` divides `2n+1` and `2n+1 > p`, and these are the indices at
which the loop of `T_from_formula` over the list `[p]` answers `0`; the index `(p-1)/2`
of `p` itself is strictly below `base` and is not in the progression. -/
theorem progression_base_property (p : Int) (hp : Nat.Prime p.toNat) (h3 : 3 ≤ p) :
    2 * base p + 1 = 3 * p ∧
      (∀ n : Int, 0 ≤ n →
        ((∃ k : Nat, n = base p + k * p) ↔ (p ∣ 2 * n + 1 ∧ p < 2 * n + 1)) ∧
        (T_from_formula_loop n [p] = 0 ↔ ∃ k : Nat, n = base p + k * p)) ∧
      (p - 1) / 2 < base p ∧
      ¬ ∃ k : Nat, (p - 1) / 2 = base p + k * p := by
  have hodd := odd_of_prime_ge_three hp h3
  have hpos : 0 < p := by omega
  refine ⟨base_odd p hodd, ?_, by unfold base; omega, ?_⟩
  · intro n _
    constructor
    · rw [progression_index_iff p n hpos, ← proper_multiple_iff p n hpos hodd]
      exact progression_iff p n hodd
    · rw [progression_index_iff p n hpos]
      exact T_from_formula_loop_single p n h3
  · rintro ⟨k, hk⟩
    have : 0 ≤ (k : Int) * p := by positivity
    unfold base at hk
    omega

theorem progression_base_property_witness :
    Nat.Prime (5 : Int).toNat ∧ (3 : Int) ≤ 5 ∧
    (2 * base 5 + 1 = 3 * 5 ∧
      (∀ n : Int, 0 ≤ n →
        ((∃ k : Nat, n = base 5 + k * 5) ↔ ((5 : Int) ∣ 2 * n + 1 ∧ 5 < 2 * n + 1)) ∧
        (T_from_formula_loop n [5] = 0 ↔ ∃ k : Nat, n = base 5 + k * 5)) ∧
      ((5 : Int) - 1) / 2 < base 5 ∧
      ¬ ∃ k : Nat, ((5 : Int) - 1) / 2 = base 5 + k * 5) :=
  ⟨Nat.prime_five, by decide, progression_base_property 5 Nat.prime_five (by decide)⟩

/-- C16 fails at `N = 1074068552`: at slot `23174` the product `p * p` overflows `int`
before `start` is computed, so the marking loop does not start at an index of the array
and the run does not return.  For `1 ≤ N < 1074068552` the claim holds.  Lines 88 to 97
of `T_via_sieve` return with `size = N + 1`, which is the length of the packed array, so
every read and write of the sieve loop was inside the array; every slot `i` with
`1 ≤ i ≤ max_i` is below `size`; the marking loop of every such slot, on any array of
`size` entries, returns an array of the same length, so every index `j` it writes is
below `size`; every `n` with `0 ≤ n ≤ N` is below `size`, so the guard `n < size` is true
and the read `is_prime_odd[n]` returns; and the call returns its array. -/
theorem packed_sieve_index_safety (N : Int) :
    T_via_sieve 1074068552 = .error .overflow ∧
    (1 ≤ N → N < 1074068552 →
      ∃ (size max_i : Int) (is_prime_odd : List Int),
        T_via_sieve_packed (2 * N + 1) = .ok (size, max_i, is_prime_odd) ∧
        size = N + 1 ∧ (is_prime_odd.length : Int) = size ∧
        (∀ i : Int, 1 ≤ i → i ≤ max_i → i < size) ∧
        (∀ (i : Int) (a : List Int), 1 ≤ i → i ≤ max_i → (a.length : Int) = size →
          ∃ a', T_via_sieve_inner size (2 * i + 1) (size.toNat + 2)
              (((2 * i + 1) * (2 * i + 1) - 1) / 2) a = .ok a' ∧ a'.length = a.length) ∧
        (∀ n : Int, 0 ≤ n → n ≤ N → n < size ∧ ∃ v, load is_prime_odd n = .ok v) ∧
        ∃ T : List Int, T_via_sieve N = .ok T ∧ (T.length : Int) = N + 1) := by
  refine ⟨T_via_sieve_overflow 1074068552 (by norm_num) (by norm_num), ?_⟩
  intro hN hlt
  obtain ⟨M, rfl⟩ : ∃ M : Nat, N = (M : Int) := ⟨N.toNat, by omega⟩
  have hsqrt : Nat.sqrt (2 * M + 1) < 46348 := by
    rw [Nat.sqrt_lt]
    omega
  have hmN : Nat.sqrt (2 * M + 1) / 2 ≤ M := by
    have := Nat.sqrt_le_self (2 * M + 1)
    omega
  obtain ⟨a, hrun, hfin⟩ := T_via_sieve_outer_spec M (Nat.sqrt (2 * M + 1) / 2) hmN
    (by omega) (fun j hj hp => odd_prime_square_fits j (by omega) hp) _
    (OddSieveInv_init M)
  have hlen : a.length = M + 1 := hfin.1
  refine ⟨(M : Int) + 1, ((Nat.sqrt (2 * M + 1) / 2 : Nat) : Int), a, ?_, rfl, ?_, ?_, ?_, ?_,
    oddPrimeFlags (M : Int), T_via_sieve_eq _ (by omega) hlt,
    oddPrimeFlags_length_int _ (by omega)⟩
  · rw [T_via_sieve_packed_eq M (by omega), hrun]
    rfl
  · rw [hlen]
    push_cast
    rfl
  · intro i _ hi
    omega
  · intro i b hi1 hi hb
    have hstart : (0 : Int) ≤ ((2 * i + 1) * (2 * i + 1) - 1) / 2 := by
      rw [odd_start]
      have : 0 ≤ i * i := mul_self_nonneg i
      nlinarith
    obtain ⟨b', hb', hblen, _⟩ :=
      primes_upto_inner_spec (((M : Int) + 1) - 1) (2 * i + 1) (by omega)
        (((M : Int) + 1).toNat + 2) (((2 * i + 1) * (2 * i + 1) - 1) / 2) b hstart
        (by omega) (by omega) (by intro k _ hk _; omega)
    rw [← T_via_sieve_inner_eq] at hb'
    exact ⟨b', hb', hblen⟩
  · intro n h0 hn
    refine ⟨by omega, _, load_ok h0 (by omega)⟩

theorem packed_sieve_index_safety_witness :
    ∃ (size max_i : Int) (is_prime_odd : List Int),
      T_via_sieve_packed (2 * 50 + 1) = .ok (size, max_i, is_prime_odd) ∧
      size = 50 + 1 ∧ (is_prime_odd.length : Int) = size ∧
      (∀ i : Int, 1 ≤ i → i ≤ max_i → i < size) ∧
      (∀ (i : Int) (a : List Int), 1 ≤ i → i ≤ max_i → (a.length : Int) = size →
        ∃ a', T_via_sieve_inner size (2 * i + 1) (size.toNat + 2)
            (((2 * i + 1) * (2 * i + 1) - 1) / 2) a = .ok a' ∧ a'.length = a.length) ∧
      (∀ n : Int, 0 ≤ n → n ≤ 50 → n < size ∧ ∃ v, load is_prime_odd n = .ok v) ∧
      ∃ T : List Int, T_via_sieve 50 = .ok T ∧ (T.length : Int) = 50 + 1 :=
  (packed_sieve_index_safety 50).2 (by decide) (by decide)

/-- C17 fails at `N = 1074068552`, inside `0 ≤ N < 2^31 - 1`: the run of `T_via_sieve`
reaches slot `23174` still flagged and computes `p * p = 46349 * 46349 = 2148229801`,
above `2^31 - 1`.  Below that `N` every product the run computes is at most
`2^31 - 1`. -/
theorem product_exceeds_int (N : Int) :
    ((0 : Int) ≤ 1074068552 ∧ (1074068552 : Int) < 2 ^ 31 - 1 ∧
      ∃ products : List Int, T_via_sieve_products 1074068552 = .ok products ∧
        (46349 * 46349 : Int) ∈ products ∧ ¬ ((46349 * 46349 : Int) ≤ 2 ^ 31 - 1)) ∧
    (0 ≤ N → N < 1074068552 →
      ∃ products : List Int, T_via_sieve_products N = .ok products ∧
        ∀ x ∈ products, x ≤ 2 ^ 31 - 1) := by
  constructor
  · refine ⟨by norm_num, by norm_num, ?_⟩
    obtain ⟨products, hrun, hmem⟩ := T_via_sieve_products_spec 1074068552 (by norm_num)
      (le_refl _)
    refine ⟨products, hrun, ?_, by norm_num⟩
    have hsqrt : Nat.sqrt (2 * 1074068552 + 1) = 46348 :=
      (Nat.eq_sqrt.mpr ⟨by norm_num, by norm_num⟩).symm
    rw [hmem, hsqrt]
    exact ⟨23174, by norm_num, by norm_num, by norm_num, by norm_num⟩
  · intro h0 hlt
    by_cases hN0 : N = 0
    · subst hN0
      exact ⟨[], rfl, fun x hx => absurd hx (List.not_mem_nil _)⟩
    · obtain ⟨M, rfl⟩ : ∃ M : Nat, N = (M : Int) := ⟨N.toNat, by omega⟩
      obtain ⟨products, hrun, hmem⟩ := T_via_sieve_products_spec M (by omega) (by omega)
      refine ⟨products, hrun, ?_⟩
      intro x hx
      obtain ⟨j, hj1, hjm, hp, rfl⟩ := (hmem x).mp hx
      have hsq : Nat.sqrt (2 * M + 1) < 46348 := by
        rw [Nat.sqrt_lt]
        omega
      have hj : j ≤ 23173 := by omega
      have hj' : j ≤ 23168 := by
        by_contra hgt
        have h1 : 23169 ≤ j := by omega
        interval_cases j <;> norm_num at hp
      have h2 : (2 * (j : Int) + 1) ≤ 46337 := by omega
      have h3 : (0 : Int) ≤ 2 * (j : Int) + 1 := by omega
      have h4 : (2 * (j : Int) + 1) * (2 * (j : Int) + 1) ≤ 46337 * 46337 :=
        mul_le_mul h2 h2 h3 (by norm_num)
      have h5 : (46337 * 46337 : Int) ≤ 2 ^ 31 - 1 := by norm_num
      exact le_trans h4 h5

/-- C18 fails at `N = 1074068552`: `generate_T (N+1)` returns the array of the `N+1`
flags, while `T_via_sieve N` ends in the overflow of `46349 * 46349` and returns nothing.
For `0 ≤ N < 1074068552` the claim holds: `generate_T (N+1)` has length `N+1` and is entry
by entry equal to `T_via_sieve N`; and `generate_T 0` is empty. -/
theorem generate_T_agrees_with_sieve (N : Int) :
    (generate_T 1074068553 = .ok (oddPrimeFlags 1074068552) ∧
      T_via_sieve 1074068552 = .error .overflow) ∧
    (0 ≤ N → N < 1074068552 →
      ∃ T : List Int, generate_T (N + 1).toNat = .ok T ∧ T_via_sieve N = .ok T ∧
        (T.length : Int) = N + 1) ∧
    generate_T 0 = .ok [] := by
  have h63 : (2 : Int) ^ 63 = 9223372036854775808 := by norm_num
  refine ⟨⟨generate_T_eq 1074068552 (by norm_num) (by norm_num),
    T_via_sieve_overflow 1074068552 (by norm_num) (by norm_num)⟩, ?_, rfl⟩
  intro hN hlt
  exact ⟨oddPrimeFlags N, generate_T_eq N hN (by omega), T_via_sieve_eq N hN hlt,
    oddPrimeFlags_length_int N hN⟩

theorem generate_T_agrees_with_sieve_witness :
    ∃ T : List Int, generate_T ((999 : Int) + 1).toNat = .ok T ∧ T_via_sieve 999 = .ok T ∧
      (T.length : Int) = 999 + 1 :=
  (generate_T_agrees_with_sieve 999).2.1 (by decide) (by decide)

/-- C19. Trial division is exact: for every `n` with `0 ≤ n < 2^63`, `is_prime n`
terminates and returns `true` if and only if `n` is a prime number; it returns `false`
for `0` and `1`, `true` for `2`, and `false` for every other even number. -/
theorem trial_division_exact (n : Nat) (hn : n < 2 ^ 63) :
    is_prime n = .ok (decide (Nat.Prime n)) ∧
      is_prime 0 = .ok false ∧ is_prime 1 = .ok false ∧ is_prime 2 = .ok true ∧
      (n % 2 = 0 → n ≠ 2 → is_prime n = .ok false) := by
  refine ⟨is_prime_eq n hn, rfl, rfl, rfl, ?_⟩
  intro heven hne
  rw [is_prime_eq n hn]
  have : ¬ Nat.Prime n := by
    intro hp
    rcases hp.eq_two_or_odd with h | h <;> omega
  rw [decide_eq_false this]

theorem trial_division_exact_witness :
    97 < 2 ^ 63 ∧
    (is_prime 97 = .ok (decide (Nat.Prime 97)) ∧
      is_prime 0 = .ok false ∧ is_prime 1 = .ok false ∧ is_prime 2 = .ok true ∧
      (97 % 2 = 0 → 97 ≠ 2 → is_prime 97 = .ok false)) :=
  ⟨by norm_num, trial_division_exact 97 (by norm_num)⟩

end SpectralT
